import Mathlib

set_option maxHeartbeats 1600000

/-!
Verification of the contract-enforcement linter generator ("eddie") and its
flow-sensitive return-type analysis contract ("retlint").

The first part is a shallow embedding of the retlint analysis
(pkg/cmd/retlint: `RetLint.Execute`, `analyze`, `decide`, `extract`,
`isAllowed`, `markDirty`, `resolve`, `stat`).  SSA values and functions are
represented by indices into a `Program`; the mutable `*funcStat` heap of the
Go implementation is represented by an explicit list of `funcStat`s addressed
by stat ids, so that the pointer aliasing of the Go code (in particular the
shared global `clean` stat, and the orphaned stat that `extract` replaces in
the `stats` map) is preserved.  Go panics are modelled by a `panicMsg` field
that, once set, short-circuits every subsequent operation, mirroring stack
unwinding.  The mutually recursive analysis is given explicit fuel; every
call consumes one unit, so all definitions are structurally recursive and
executable.
-/

namespace retlint

/-- The four analysis states of a function under RetLint
(`stateUnknown`, `stateAnalyzing`, `stateClean`, `stateDirty`). -/
inductive FState
  | unknown
  | analyzing
  | clean
  | dirty
deriving Repr, DecidableEq, Inhabited

/-- The subset of `go/types` types the analysis inspects: named types,
pointers, tuples, and a catch-all for every other kind of type.  Neither
`isAllowed` nor `decide` ever reads a tuple's components, so only the arity
is carried. -/
inductive GoType
  | named (name : String)
  | pointer (elem : GoType)
  | tuple (arity : Nat)
  | basic (desc : String)
deriving Repr, DecidableEq, Inhabited

/-- Rendering of a type, standing in for the `%q`-formatted `types.Type`. -/
def GoType.render : GoType → String
  | .named n => n
  | .pointer e => "*" ++ e.render
  | .tuple _ => "(tuple)"
  | .basic d => d

def quoteStr (s : String) : String := "\"" ++ s ++ "\""

def quoteType (t : GoType) : String := quoteStr t.render

/-- `RetLint.isAllowed`: unwrap pointers until a named type is reached and
test set membership; a tuple type hits the `panic` branch (`none`); every
other kind of type is not allowed.  `none` models the Go panic
"should not see a tuple type; unpack in extract()". -/
def isAllowed (allowed : List String) : GoType → Option Bool
  | .pointer e => isAllowed allowed e
  | .named n => some (allowed.contains n)
  | .tuple _ => none
  | .basic _ => some false

/-- The unary-operation tokens that can reach `decide`'s `*ssa.UnOp` case;
`token.MUL` is a dereference, `ARROW` is a channel receive, `SUB` a
negation. -/
inductive UnTok
  | mul
  | arrow
  | sub
deriving Repr, DecidableEq, Inhabited

/-- The shapes of `ssa.Value` distinguished by `RetLint.decide`; indices are
positions in `Program.vals`.  `basicVal` covers every shape that falls into
the `default` case of the switch (e.g. `Alloc`, `Parameter`, `Lookup`). -/
inductive ValShape
  | call (callee : Option Nat) (ty : GoType)
  | const (isNil : Bool) (ty : GoType)
  | extract (tupleVal : Nat) (ty : GoType)
  | makeInterface (x : Nat) (ty : GoType)
  | phi (edges : List Nat) (ty : GoType)
  | typeAssert (asserted : GoType) (ty : GoType)
  | unop (op : UnTok) (x : Nat) (ty : GoType)
  | basicVal (ty : GoType)
deriving Repr, DecidableEq

instance : Inhabited ValShape := ⟨.basicVal (.named "")⟩

/-- An SSA function: its name, whether it belongs to an input (root)
package, its signature's result types, and its `Return` instructions, each
holding the value ids of its `Results`. -/
structure Func where
  name : String
  inRoot : Bool
  results : List GoType
  returns : List (List Nat)
deriving Repr, DecidableEq, Inhabited

/-- A loaded SSA program: functions and values addressed by index, and the
bootstrap order of `Execute` (top-level functions and the value- and
pointer-receiver method sets of the root packages). -/
structure Program where
  funcs : List Func
  vals : List ValShape
  roots : List Nat
deriving Repr, DecidableEq, Inhabited

/-- `DirtyReason`: one hop of a `why` explanation chain. -/
structure DirtyReason where
  reason : String
  value : Nat
deriving Repr, DecidableEq, Inhabited

/-- `funcStat`: per-function analysis record.  Its defining file is not part
of the sources; the fields are reconstructed from every use in `Execute`,
`analyze`, `decide`, `extract`, `markDirty` and `stat`, and from the spec's
data model (`{fn, return_sites, target_indices, state, why, dependents}`).
`dirties` maps a dependent stat id to the call site that links it here. -/
structure funcStat where
  fn : Nat
  returns : List (List Nat)
  targetIndexes : List Nat
  state : FState
  why : List DirtyReason
  dirties : List (Nat × Nat)
deriving Repr, DecidableEq

instance : Inhabited funcStat :=
  ⟨{ fn := 0, returns := [], targetIndexes := [], state := .unknown,
     why := [], dirties := [] }⟩

/-- The shared `clean` stat (`var clean = &funcStat{state: stateClean}`,
declared in a file outside the sources; its existence and permanent
Clean-ness follow from `extract`'s `l.stats[fn] = clean` and the spec's
"Irrelevant functions are permanently marked Clean").  It lives at stat id
0 of every heap. -/
def cleanStat : funcStat :=
  { fn := 0, returns := [], targetIndexes := [], state := .clean,
    why := [], dirties := [] }

/-- The mutable state of a `RetLint` run: the heap of `funcStat`s (stat ids
are indices, pointers in Go), the `stats` map from function id to stat id,
the `work` list, and the pending panic (if any). -/
structure LintState where
  heap : List funcStat
  stats : List (Nat × Nat)
  work : List Nat
  panicMsg : Option String
deriving Repr, DecidableEq

/-- Lookup in an association-list map (first binding wins). -/
def mapFind (m : List (Nat × Nat)) (k : Nat) : Option Nat :=
  (m.find? (fun p => p.1 == k)).map (·.2)

/-- Overwriting insertion into an association-list map. -/
def mapInsert (m : List (Nat × Nat)) (k v : Nat) : List (Nat × Nat) :=
  (k, v) :: m.filter (fun p => p.1 ≠ k)

def LintState.getStat (s : LintState) (sid : Nat) : funcStat :=
  s.heap.getD sid default

def LintState.updStat (s : LintState) (sid : Nat) (f : funcStat → funcStat) :
    LintState :=
  { s with heap := s.heap.set sid (f (s.heap.getD sid default)) }

def LintState.setPanic (s : LintState) (m : String) : LintState :=
  { s with panicMsg := some m }

/-- The message of `isAllowed`'s panic branch. -/
def tupleMsg : String := "should not see a tuple type; unpack in extract()"

/-- Overwriting insertion into a `dirties` map keyed by dependent stat id
(`next.dirties[stat] = t`). -/
def dirtiesInsert (l : List (Nat × Nat)) (dep call : Nat) : List (Nat × Nat) :=
  (dep, call) :: l.filter (fun q => q.1 ≠ dep)

/-- The analysis context: the program plus the resolved target interface
name and allowed type names (pointer identity of `*types.Named` is modelled
by name equality). -/
structure Ctx where
  prog : Program
  target : String
  allowed : List String

def Ctx.shape (c : Ctx) (v : Nat) : ValShape := c.prog.vals.getD v default

/-- The `targetIndexes` computed by `extract`: positions of the signature's
results whose type is the named target interface. -/
def targetIndexesOf (c : Ctx) (fn : Nat) : List Nat :=
  let results := (c.prog.funcs.getD fn default).results
  (List.range results.length).filter (fun i =>
    match results.getD i default with
    | .named n => n == c.target
    | _ => false)

/-- The fresh record `stat` allocates
(`&funcStat{dirties: make(map...), fn: fn}`). -/
def freshStat (fn : Nat) : funcStat :=
  { fn := fn, returns := [], targetIndexes := [], state := .unknown,
    why := [], dirties := [] }

/-- The allocation step of `stat`: append a fresh record, bind it in the
`stats` map, and push it on the work list. -/
def statNew (fn : Nat) (s : LintState) : LintState × Nat :=
  let sid := s.heap.length
  ({ s with
      heap := s.heap ++ [freshStat fn],
      stats := mapInsert s.stats fn sid,
      work := s.work ++ [sid] }, sid)

/-- `RetLint.stat` with `extract` inlined: memoize a fresh `funcStat`,
append it to the work list, and extract returns/target indexes.  For an
irrelevant function (no results, or no result of the target type) the map
entry is replaced by the shared `clean` stat (id 0) while the freshly
created stat — still returned, as in Go — is orphaned. -/
def statF (c : Ctx) (fn : Nat) (s : LintState) : LintState × Nat :=
  if s.panicMsg.isSome then (s, 0) else
  match mapFind s.stats fn with
  | some sid => (s, sid)
  | none =>
    let p := statNew fn s
    let f := c.prog.funcs.getD fn default
    if f.results.isEmpty then
      ({ p.1 with stats := mapInsert p.1.stats fn 0 }, p.2)
    else
      let tIdx := targetIndexesOf c fn
      if tIdx.isEmpty then
        ({ p.1 with stats := mapInsert p.1.stats fn 0 }, p.2)
      else
        (p.1.updStat p.2 (fun st =>
          { st with returns := f.returns, targetIndexes := tIdx }), p.2)

mutual

/-- `RetLint.analyze`: no-op unless the state is Unknown; otherwise set the
state to Analyzing and decide every result at every target index, stopping
as soon as the state leaves Analyzing.  (The Go `defer`/`recover` wrapper
only re-raises panics with the function name prepended; propagation of
`panicMsg` models this.) -/
def analyzeF (c : Ctx) : Nat → Nat → LintState → LintState
  | 0, _, s => s
  | fuel+1, sid, s =>
    if s.panicMsg.isSome then s else
    let st := s.getStat sid
    if st.state ≠ .unknown then s
    else
      let s := s.updStat sid (fun t => { t with state := .analyzing })
      analyzeRets c fuel sid st.returns st.targetIndexes [] s
termination_by structural fuel _ _ => fuel

/-- The outer loop of `analyze` over the `Return` instructions,
threading the per-invocation `seen` set. -/
def analyzeRets (c : Ctx) :
    Nat → Nat → List (List Nat) → List Nat → List Nat → LintState → LintState
  | 0, _, _, _, _, s => s
  | _+1, _, [], _, _, s => s
  | fuel+1, sid, r :: rest, tIdx, seen, s =>
    let p := analyzeIdxs c fuel sid r tIdx seen s
    if (p.1.getStat sid).state ≠ .analyzing then p.1
    else analyzeRets c fuel sid rest tIdx p.2 p.1
termination_by structural fuel _ _ _ _ _ => fuel

/-- The inner loop of `analyze` over the target indexes of one `Return`;
after each `decide` the function returns early if the state left
Analyzing. -/
def analyzeIdxs (c : Ctx) :
    Nat → Nat → List Nat → List Nat → List Nat → LintState →
    LintState × List Nat
  | 0, _, _, _, seen, s => (s, seen)
  | _+1, _, _, [], seen, s => (s, seen)
  | fuel+1, sid, rvals, idx :: rest, seen, s =>
    let p := decideF c fuel sid (rvals.getD idx 0) seen s
    if (p.1.getStat sid).state ≠ .analyzing then p
    else analyzeIdxs c fuel sid rvals rest p.2 p.1
termination_by structural fuel _ _ _ _ _ => fuel

/-- `RetLint.decide`: the per-shape rule table.  Exactly as in the source:
a call with a static callee is analyzed and either ignored (Clean),
propagated (`"calls"` chain, Dirty) or registered as a dependency; a call
without a static callee is dirty; non-nil constants, type assertions and
`default`-case values are dirty iff their type is not allowed; `Extract`,
`MakeInterface`, `Phi` and a `*`-`UnOp` recurse; a `UnOp` whose operator is
not `*` does nothing. -/
def decideF (c : Ctx) :
    Nat → Nat → Nat → List Nat → LintState → LintState × List Nat
  | 0, _, _, seen, s => (s, seen)
  | fuel+1, sid, v, seen, s =>
    if s.panicMsg.isSome then (s, seen) else
    if v ∈ seen then (s, seen) else
    let seen := v :: seen
    match c.shape v with
    | .call (some callee) _ =>
      let p := statF c callee s
      let s := analyzeF c fuel p.2 p.1
      match (s.getStat p.2).state with
      | .clean => (s, seen)
      | .dirty =>
        let why := { reason := "calls", value := v } :: (s.getStat p.2).why
        (markDirtyF c fuel sid why s, seen)
      | _ =>
        (s.updStat p.2 (fun st =>
          { st with dirties := dirtiesInsert st.dirties sid v }), seen)
    | .call none _ =>
      (markDirtyF c fuel sid [{ reason := "callee not static", value := v }] s,
       seen)
    | .const isNil ty =>
      if isNil then (s, seen)
      else
        match isAllowed c.allowed ty with
        | none => (s.setPanic tupleMsg, seen)
        | some true => (s, seen)
        | some false =>
          (markDirtyF c fuel sid
            [{ reason := "constant of type " ++ quoteType ty, value := v }] s,
           seen)
    | .extract tupleVal _ => decideF c fuel sid tupleVal seen s
    | .makeInterface x _ => decideF c fuel sid x seen s
    | .phi edges _ => decidePhis c fuel sid edges seen s
    | .typeAssert asserted _ =>
      match isAllowed c.allowed asserted with
      | none => (s.setPanic tupleMsg, seen)
      | some true => (s, seen)
      | some false =>
        (markDirtyF c fuel sid
          [{ reason := "assertion to " ++ quoteType asserted, value := v }] s,
         seen)
    | .unop op x _ =>
      if op = .mul then decideF c fuel sid x seen s else (s, seen)
    | .basicVal ty =>
      match isAllowed c.allowed ty with
      | none => (s.setPanic tupleMsg, seen)
      | some true => (s, seen)
      | some false =>
        (markDirtyF c fuel sid
          [{ reason := "result of disallowed type " ++ quoteType ty,
             value := v }] s,
         seen)
termination_by structural fuel _ _ _ _ => fuel

/-- The fold of `decide` over the edges of a `Phi`. -/
def decidePhis (c : Ctx) :
    Nat → Nat → List Nat → List Nat → LintState → LintState × List Nat
  | 0, _, _, seen, s => (s, seen)
  | _+1, _, [], seen, s => (s, seen)
  | fuel+1, sid, e :: rest, seen, s =>
    let p := decideF c fuel sid e seen s
    decidePhis c fuel sid rest p.2 p.1
termination_by structural fuel _ _ _ _ => fuel

/-- `RetLint.markDirty`: adopt the new `why` iff none is stored or the new
one is strictly shorter; return early when already Dirty and unchanged;
otherwise become Dirty and propagate a one-hop-longer chain to every
registered dependent. -/
def markDirtyF (c : Ctx) : Nat → Nat → List DirtyReason → LintState → LintState
  | 0, _, _, s => s
  | fuel+1, sid, why, s =>
    if s.panicMsg.isSome then s else
    let st := s.getStat sid
    let changed : Bool := st.why.isEmpty || decide (why.length < st.why.length)
    let s := if changed then s.updStat sid (fun t => { t with why := why }) else s
    if st.state = .dirty ∧ changed = false then s
    else
      let s := s.updStat sid (fun t => { t with state := .dirty })
      markProp c fuel st.dirties why s
termination_by structural fuel _ _ _ => fuel

/-- The propagation fold of `markDirty` over the `dirties` map. -/
def markProp (c : Ctx) :
    Nat → List (Nat × Nat) → List DirtyReason → LintState → LintState
  | 0, _, _, s => s
  | _+1, [], _, s => s
  | fuel+1, q :: rest, why, s =>
    let s := markDirtyF c fuel q.1 ({ reason := "calls", value := q.2 } :: why) s
    markProp c fuel rest why s
termination_by structural fuel _ _ _ => fuel

end

/-- One drained round of `Execute`'s work loop. -/
def runWork (c : Ctx) (fuel : Nat) : List Nat → LintState → LintState
  | [], s => s
  | sid :: rest, s => runWork c fuel rest (analyzeF c fuel sid s)

/-- `Execute`'s fixed-point loop: take the current work list, clear it,
analyze every entry, and repeat until a round adds nothing. -/
def workLoop (c : Ctx) : Nat → Nat → LintState → LintState
  | 0, _, s => s
  | outer+1, fuel, s =>
    if s.work.isEmpty then s
    else
      let work := s.work
      let s := { s with work := ([] : List Nat) }
      workLoop c outer fuel (runWork c fuel work s)

/-- `Execute`'s bootstrap: seed a stat for every root member. -/
def bootstrap (c : Ctx) : List Nat → LintState → LintState
  | [], s => s
  | fn :: rest, s => bootstrap c rest (statF c fn s).1

/-- The stat ids currently referenced by the `stats` map (one per function,
the shared clean stat possibly repeated). -/
def activeSids (s : LintState) : List Nat :=
  ((s.stats.map (·.1)).dedup).filterMap (mapFind s.stats)

/-- One step of `Execute`'s final sweep. -/
def cleanStep (s : LintState) (sid : Nat) : LintState :=
  if (s.getStat sid).state = .analyzing then
    s.updStat sid (fun t => { t with state := .clean })
  else s

def sweepClean : List Nat → LintState → LintState
  | [], s => s
  | sid :: rest, s => sweepClean rest (cleanStep s sid)

/-- `Execute`'s final sweep: any function still Analyzing becomes Clean. -/
def cleanupPass (s : LintState) : LintState :=
  sweepClean (activeSids s) s

/-- `ast.IsExported`: the name starts with an upper-case letter. -/
def isExported (n : String) : Bool :=
  match n.toList with
  | [] => false
  | ch :: _ => ch.isUpper

/-- `Execute`'s result collection: Dirty, exported, declared in an input
package. -/
def collectDirty (c : Ctx) (s : LintState) : List (Nat × List DirtyReason) :=
  (activeSids s).filterMap (fun sid =>
    let st := s.getStat sid
    let f := c.prog.funcs.getD st.fn default
    if st.state = .dirty ∧ isExported f.name = true ∧ f.inRoot = true then
      some (st.fn, st.why)
    else none)

/-- The type-name environment `resolve` consults: the `types.Universe`
scope and the loaded packages (`pgm.AllPackages()`), each mapping simple
names to types. -/
structure ResolveEnv where
  universeScope : List (String × GoType)
  packages : List (String × List (String × GoType))
deriving Repr

/-- Index of the last slash of a path, as used by `path.Split`. -/
def lastSlashIdx : List Char → Nat → Option Nat → Option Nat
  | [], _, acc => acc
  | ch :: rest, i, acc => lastSlashIdx rest (i + 1) (if ch = '/' then some i else acc)

/-- `path.Split`: split after the final slash; the directory keeps the
trailing slash. -/
def pathSplit (s : String) : String × String :=
  let cs := s.toList
  match lastSlashIdx cs 0 none with
  | none => ("", s)
  | some i => (String.mk (cs.take (i + 1)), String.mk (cs.drop (i + 1)))

/-- Outcomes of `resolve`: a named type's name, an error, or the nil
dereference that the unconditional `found = tgtObject.Type()` line performs
when the universe lookup failed. -/
inductive ROutcome
  | ok (name : String)
  | err (msg : String)
  | nilDeref
deriving Repr, DecidableEq

/-- `resolve`: a simple name is looked up in the universe scope — and, due
to the unguarded duplicate assignment after the `tgtObject != nil` check,
dereferenced even when absent (`nilDeref`).  A qualified name is looked up
in the package with the matching path (first match, then `break`); an
absent package or type yields the "unable to find type" error; a non-named
result yields the "was not a named type" error. -/
def resolve (env : ResolveEnv) (typeName : String) : ROutcome :=
  let ps := pathSplit typeName
  if ps.1 = "" then
    match (env.universeScope.find? (fun p => p.1 == ps.2)).map (·.2) with
    | none => .nilDeref
    | some t =>
      match t with
      | .named n => .ok n
      | _ => .err (quoteStr ps.2 ++ " was not a named type")
  else
    let tgtPath := String.mk (ps.1.toList.take (ps.1.toList.length - 1))
    let found : Option GoType :=
      match env.packages.find? (fun p => p.1 == tgtPath) with
      | some pkg => (pkg.2.find? (fun q => q.1 == ps.2)).map (·.2)
      | none => none
    match found with
    | none => .err ("unable to find type " ++ quoteStr typeName)
    | some (.named n) => .ok n
    | some _ => .err (quoteStr ps.2 ++ " was not a named type")

/-- Outcome of resolving the list of allowed names, errors and panics
propagating in order. -/
inductive NamesOutcome
  | ok (names : List String)
  | err (msg : String)
  | nilDeref
deriving Repr, DecidableEq

def resolveList (env : ResolveEnv) : List String → NamesOutcome
  | [] => .ok []
  | n :: rest =>
    match resolve env n with
    | .nilDeref => .nilDeref
    | .err m => .err m
    | .ok nm =>
      match resolveList env rest with
      | .ok nms => .ok (nm :: nms)
      | .err m => .err m
      | .nilDeref => .nilDeref

/-- The `RetLint` configuration fields that `Execute` consults. -/
structure RetLint where
  AllowedNames : List String
  TargetName : String
deriving Repr

/-- Outcome of `RetLint.Execute`: a configuration error, a propagated Go
panic, or the final analysis state together with the collected dirty
functions. -/
inductive ExecOutcome
  | err (msg : String)
  | panicked (msg : String)
  | ok (final : LintState) (dirty : List (Nat × List DirtyReason))
deriving Repr, DecidableEq

/-- The Go runtime's message for a nil interface dereference. -/
def nilDerefMsg : String :=
  "runtime error: invalid memory address or nil pointer dereference"

/-- The initial analysis state: the shared clean stat on the heap, empty
map and work list, no pending panic. -/
def initState : LintState :=
  { heap := [cleanStat], stats := [], work := [], panicMsg := none }

/-- `RetLint.Execute`: reject an empty target name; resolve the target and
the allowed names; bootstrap a stat per root member; run the fixed-point
work loop; flip surviving Analyzing states to Clean; collect exported dirty
functions of the input packages. -/
def execute (l : RetLint) (env : ResolveEnv) (p : Program)
    (fuelOuter fuelInner : Nat) : ExecOutcome :=
  if l.TargetName = "" then .err "no target interface name set"
  else
    match resolve env l.TargetName with
    | .nilDeref => .panicked nilDerefMsg
    | .err m => .err m
    | .ok target =>
      match resolveList env l.AllowedNames with
      | .nilDeref => .panicked nilDerefMsg
      | .err m => .err m
      | .ok allowed =>
        let c : Ctx := { prog := p, target := target, allowed := allowed }
        let s := workLoop c fuelOuter fuelInner (bootstrap c p.roots initState)
        match s.panicMsg with
        | some m => .panicked m
        | none =>
          let s := cleanupPass s
          .ok s (collectDirty c s)

/-- The final analysis state recorded for function `fn` (through the
`stats` map), when `execute` succeeds. -/
def finalStateOf (l : RetLint) (env : ResolveEnv) (p : Program)
    (fuelOuter fuelInner fn : Nat) : Option FState :=
  match execute l env p fuelOuter fuelInner with
  | .ok s _ =>
    match mapFind s.stats fn with
    | some sid => some (s.getStat sid).state
    | none => none
  | _ => none

/-- The final `why` chain recorded for function `fn`, when `execute`
succeeds. -/
def finalWhyOf (l : RetLint) (env : ResolveEnv) (p : Program)
    (fuelOuter fuelInner fn : Nat) : Option (List DirtyReason) :=
  match execute l env p fuelOuter fuelInner with
  | .ok s _ =>
    match mapFind s.stats fn with
    | some sid => some (s.getStat sid).why
    | none => none
  | _ => none

end retlint

namespace rt

/-!
Shallow embedding of the enforcement runtime (pkg/cmd/eddie/rt/enforcer.go):
alias expansion (`Enforcer.expand`, `Enforcer.expandAll`), per-target
enforcement (`Enforcer.enforce`, `Enforcer.enforceAll`) and the exit-code
logic of `Enforcer.Main`.  A `target` carries an `id` standing for the Go
pointer identity that the `seen` sets of `expand` compare; positions are
opaque naturals.
-/

/-- A `target`: one parsed contract annotation (or one alias binding).
`id` models the Go pointer identity of the `*target`; `pos` the comment
position. -/
structure target where
  id : Nat
  contract : String
  config : String
  pos : Nat
deriving Repr, DecidableEq, Inhabited

/-- The `targetAliases` map: contract-alias name to the targets it was
declared with (`nil` lookup means the name is not an alias). -/
def AliasTable := List (String × List target)

def aliasLookup (al : AliasTable) (c : String) : Option (List target) :=
  (al.find? (fun p => p.1 == c)).map (·.2)

/-- The position rendering used by the errors of `expand` and `expandAll`
(`base.fset.Position(base.Pos())`). -/
def posString (p : Nat) : String := "pos" ++ toString p

/-- The message of `expand`'s cycle error:
`"%s detected recursive contract %q"`. -/
def cycleMsg (base : target) (alias' : target) : String :=
  posString base.pos ++ " detected recursive contract " ++
    retlint.quoteStr alias'.contract

/-- The terminal target minted for one alias binding: a copy of `base`
(`dup := *base`) carrying the alias's contract name and configuration. -/
def dupOf (base alias' : target) : target :=
  { base with contract := alias'.contract, config := alias'.config }

/-- Byte-wise lexicographic string comparison (Go string ordering). -/
def strLE : List Char → List Char → Bool
  | [], _ => true
  | _ :: _, [] => false
  | x :: xs, y :: ys =>
    if x.toNat < y.toNat then true
    else if y.toNat < x.toNat then false
    else strLE xs ys

/-- The spec's total order on targets, `(position, contract name)`, used by
`sort.Sort(term)`; the `targets.Less` method is declared outside the
sources. -/
def targetLE (a b : target) : Bool :=
  a.pos < b.pos || (a.pos == b.pos && strLE a.contract.toList b.contract.toList)

/-- Insertion of one target into a sorted list (insertion sort models
`sort.Sort`, which promises a sorted permutation and nothing more). -/
def sortInsert (t : target) : List target → List target
  | [] => [t]
  | a :: rest => if targetLE t a then t :: a :: rest else a :: sortInsert t rest

def sortTargets : List target → List target
  | [] => []
  | t :: rest => sortInsert t (sortTargets rest)

/-- The inner loop of `expand` over one copied batch (`work`): a target
already in `seen` is the detected cycle; an alias target queues its own
expansions; any other target mints a terminal duplicate of `base`. -/
def expandBatch (al : AliasTable) (base : target) :
    List target → List Nat → List target → List target →
    Except String (List Nat × List target × List target)
  | [], seen, nonTerm, term => .ok (seen, nonTerm, term)
  | a :: rest, seen, nonTerm, term =>
    if a.id ∈ seen then .error (cycleMsg base a)
    else
      match aliasLookup al a.contract with
      | some more => expandBatch al base rest (a.id :: seen) (nonTerm ++ more) term
      | none => expandBatch al base rest (a.id :: seen) nonTerm (term ++ [dupOf base a])

/-- The outer loop of `expand` (`for len(nonTerm) > 0`), with fuel making
the recursion structural; `none` is exhaustion of the fuel, which a later
theorem shows cannot happen once the fuel exceeds the number of alias
targets. -/
def expandLoop (al : AliasTable) (base : target) :
    Nat → List Nat → List target → List target →
    Option (Except String (List target))
  | 0, _, _, _ => none
  | fuel+1, seen, nonTerm, term =>
    if nonTerm.isEmpty then some (.ok (sortTargets term))
    else
      match expandBatch al base nonTerm seen [] term with
      | .error e => some (.error e)
      | .ok (seen', nonTerm', term') => expandLoop al base fuel seen' nonTerm' term'
termination_by structural fuel _ _ _ => fuel

/-- `Enforcer.expand`: a target whose contract is not an alias is returned
as-is; otherwise the alias graph is walked breadth-first with a visited set
seeded with `base`, failing on the first re-visited target. -/
def expand (al : AliasTable) (base : target) (fuel : Nat) :
    Option (Except String (List target)) :=
  match aliasLookup al base.contract with
  | none => some (.ok [base])
  | some nonTerm => expandLoop al base fuel [base.id] nonTerm []

/-- Fuel that always suffices for `expandLoop` (one unit per distinct
target id plus slack). -/
def expandFuel (al : AliasTable) (base : target) : Nat :=
  ((base.id :: (al.flatMap (·.2)).map (·.id)).dedup).length + 2

/-- Provider binding and configuration of `expandAll`, for one terminal
target: a missing provider is a fatal positioned error; a non-empty
configuration must decode (decoding by `encoding/json` is external, so
success is abstracted by the `decodeOk` predicate; a failure is a fatal
positioned error). -/
def bindTarget (contracts : List String) (decodeOk : String → Bool)
    (tgt : target) : Except String target :=
  if tgt.contract ∈ contracts then
    if tgt.config ≠ "" ∧ decodeOk tgt.config = false then
      .error (posString tgt.pos ++ ": bad config")
    else .ok tgt
  else
    .error (posString tgt.pos ++ ": cannot find contract named " ++ tgt.contract)

def bindAll (contracts : List String) (decodeOk : String → Bool) :
    List target → Except String (List target)
  | [] => .ok []
  | t :: rest =>
    match bindTarget contracts decodeOk t with
    | .error e => .error e
    | .ok t' =>
      match bindAll contracts decodeOk rest with
      | .error e => .error e
      | .ok l => .ok (t' :: l)

/-- `Enforcer.expandAll`: expand every scanned target, concatenate the
expansions in order, then bind each terminal target to its provider and
decode its configuration.  No coalescing of duplicates is performed. -/
def expandGo (al : AliasTable) (contracts : List String)
    (decodeOk : String → Bool) (fuel : Nat) :
    List target → List target → Option (Except String (List target))
  | [], acc => some (bindAll contracts decodeOk acc)
  | t :: rest, acc =>
    match expand al t fuel with
    | none => none
    | some (.error e) => some (.error e)
    | some (.ok l) => expandGo al contracts decodeOk fuel rest (acc ++ l)

def expandAll (al : AliasTable) (contracts : List String)
    (decodeOk : String → Bool) (tgts : List target) (fuel : Nat) :
    Option (Except String (List target)) :=
  expandGo al contracts decodeOk fuel tgts []

/-- A report as assembled by `contextImpl.Reportf` and the aggregator of
`Execute`: the reported position, the contract of the reporting target, and
the message text. -/
structure report where
  pos : Nat
  contract : String
  info : String
deriving Repr, DecidableEq

/-- The behaviour of a contract's `Enforce` method on a target: `none` is
success, `some e` an error return. -/
def Behavior := target → Option String

/-- `Enforcer.enforce`, error-handling part: when the contract's `Enforce`
returns a non-nil error it is reported against the target's declaration as
`"%s: %v"` of the contract name and the error, and `enforce` itself always
returns `nil`. -/
def enforce (behave : Behavior) (tgt : target) : List report × Option String :=
  match behave tgt with
  | some e =>
    ([{ pos := tgt.pos, contract := tgt.contract,
        info := tgt.contract ++ ": " ++ e }], none)
  | none => ([], none)

/-- `Enforcer.enforceAll`, modelled sequentially: a worker that receives an
error from `enforce` would return it and cancel its siblings via the error
group; the accumulated reports and the first worker error are returned. -/
def enforceAll (behave : Behavior) : List target → List report × Option String
  | [] => ([], none)
  | t :: rest =>
    let p := enforce behave t
    match p.2 with
    | some e => (p.1, some e)
    | none =>
      let q := enforceAll behave rest
      (p.1 ++ q.1, q.2)

/-- The error returned by the `enforce` subcommand's `RunE`
(`Enforcer.Main`): the error of `Execute`, except that a successful run
with `SetExitStatus` set is unconditionally replaced by the
"reports generated" error — regardless of whether any report exists. -/
def runEnforce (setExitStatus : Bool) (results : List report)
    (execErr : Option String) : Option String :=
  if execErr = none ∧ setExitStatus = true then some "reports generated"
  else execErr

/-- `Enforcer.Main`'s exit code: 1 iff `root.Execute()` returned an
error. -/
def mainExit (setExitStatus : Bool) (results : List report)
    (execErr : Option String) : Nat :=
  match runEnforce setExitStatus results execErr with
  | some _ => 1
  | none => 0

end rt

namespace retlint

/-!
Claim-side reference definitions.  These formalise the vocabulary of the
specification ("dirty-producing path in the call+value graph", "returns
only nil or allowed values", and so on) independently of the analysis
functions, so that the analysis can be compared against them.
-/

/-- Value-graph reachability along the edges `decide` recurses on: tuple
projections, interface wraps, phi edges and dereferences. -/
inductive VReach (c : Ctx) : Nat → Nat → Prop
  | refl (v : Nat) : VReach c v v
  | extract {v t w : Nat} {ty : GoType} :
      c.shape v = .extract t ty → VReach c t w → VReach c v w
  | mkIntf {v x w : Nat} {ty : GoType} :
      c.shape v = .makeInterface x ty → VReach c x w → VReach c v w
  | phi {v x w : Nat} {edges : List Nat} {ty : GoType} :
      c.shape v = .phi edges ty → x ∈ edges → VReach c x w → VReach c v w
  | deref {v x w : Nat} {ty : GoType} :
      c.shape v = .unop .mul x ty → VReach c x w → VReach c v w

/-- A value that is dirty by itself under the rule table: a non-nil
disallowed constant, a disallowed type assertion, a `default`-case value of
disallowed type, or a call without a static callee. -/
def DirectDirty (c : Ctx) (v : Nat) : Prop :=
  match c.shape v with
  | .const isNil ty => isNil = false ∧ isAllowed c.allowed ty = some false
  | .typeAssert asserted _ => isAllowed c.allowed asserted = some false
  | .basicVal ty => isAllowed c.allowed ty = some false
  | .call none _ => True
  | _ => False

/-- `v` is one of the values `analyze` starts from for function `fn`: a
result at a target index of one of its `Return` instructions. -/
def RootVal (c : Ctx) (fn v : Nat) : Prop :=
  ∃ r ∈ (c.prog.funcs.getD fn default).returns,
    ∃ idx ∈ targetIndexesOf c fn, r.getD idx 0 = v

/-- A dirty-producing path of `n` hops reaching function `fn` in the
call+value graph: either some returned value reaches a directly dirty value
(one hop), or it reaches a call with a static callee that has a
dirty-producing path of `n` hops (`n + 1` hops in total).  This is the
spec's measure for the length of a `why` explanation. -/
inductive DirtyProducing (c : Ctx) : Nat → Nat → Prop
  | direct {fn rv v : Nat} :
      RootVal c fn rv → VReach c rv v → DirectDirty c v →
      DirtyProducing c fn 1
  | viaCall {fn rv v g n : Nat} {ty : GoType} :
      RootVal c fn rv → VReach c rv v → c.shape v = .call (some g) ty →
      DirtyProducing c g n → DirtyProducing c fn (n + 1)

/-- The static type of a value shape (`ssa.Value.Type()`). -/
def ValShape.ty : ValShape → GoType
  | .call _ ty => ty
  | .const _ ty => ty
  | .extract _ ty => ty
  | .makeInterface _ ty => ty
  | .phi _ ty => ty
  | .typeAssert _ ty => ty
  | .unop _ _ ty => ty
  | .basicVal ty => ty

/-- The hypothesis of the soundness claim, formalised from its words: every
`Return` of `fn` yields, at each target index, either a nil constant or a
value whose type (after pointer unwrap) is a named type of the allowed
set. -/
def ReturnsOnlyAllowedOrNil (c : Ctx) (fn : Nat) : Prop :=
  ∀ r ∈ (c.prog.funcs.getD fn default).returns,
    ∀ idx ∈ targetIndexesOf c fn,
      (∃ ty, c.shape (r.getD idx 0) = .const true ty) ∨
      (∃ sh, c.shape (r.getD idx 0) = sh ∧ isAllowed c.allowed sh.ty = some true)

/-- Values on which `decide` can never mark the analyzed function dirty nor
register it as a dependent: nil constants; constants, type assertions and
`default`-case values of allowed type; and anything built from such values
by interface wraps, phis and dereferences.  Calls are deliberately not
included — `decide` never consults a call's own type. -/
inductive Safe (c : Ctx) : Nat → Prop
  | constNil {v : Nat} {ty : GoType} :
      c.shape v = .const true ty → Safe c v
  | constAllowed {v : Nat} {ty : GoType} :
      c.shape v = .const false ty → isAllowed c.allowed ty = some true →
      Safe c v
  | assertAllowed {v : Nat} {asserted ty : GoType} :
      c.shape v = .typeAssert asserted ty →
      isAllowed c.allowed asserted = some true → Safe c v
  | basicAllowed {v : Nat} {ty : GoType} :
      c.shape v = .basicVal ty → isAllowed c.allowed ty = some true → Safe c v
  | mkIntf {v x : Nat} {ty : GoType} :
      c.shape v = .makeInterface x ty → Safe c x → Safe c v
  | phi {v : Nat} {edges : List Nat} {ty : GoType} :
      c.shape v = .phi edges ty → (∀ x ∈ edges, Safe c x) → Safe c v
  | deref {v x : Nat} {ty : GoType} :
      c.shape v = .unop .mul x ty → Safe c x → Safe c v

end retlint

namespace retlint

/-!
Invariants of the work phase.  `StatMono` captures the per-stat transition
discipline of the C4 claim: the extraction fields never change, a Dirty
stat stays Dirty and its `why` only ever shrinks strictly, a Clean stat is
never touched.  `Wf` is the well-formedness the work phase maintains: a
Dirty stat has a non-empty `why`, and no `dirties` entry points at a Clean
stat.
-/

def StatMono (a b : funcStat) : Prop :=
  b.fn = a.fn ∧ b.returns = a.returns ∧ b.targetIndexes = a.targetIndexes ∧
  (a.state = .dirty → b.state = .dirty ∧
    (b.why = a.why ∨ b.why.length < a.why.length)) ∧
  (a.state = .clean → b.state = .clean ∧ b.why = a.why ∧
    b.dirties = a.dirties) ∧
  (a.state ≠ .clean → b.state ≠ .clean)

def Mono (s s' : LintState) : Prop :=
  s.heap.length ≤ s'.heap.length ∧
  (∀ i, i < s.heap.length → StatMono (s.getStat i) (s'.getStat i)) ∧
  (∀ sid, (s.getStat sid).state ≠ .clean → (s'.getStat sid).state ≠ .clean)

def Wf (s : LintState) : Prop :=
  (∀ i, i < s.heap.length → (s.getStat i).state = .dirty →
    (s.getStat i).why ≠ []) ∧
  (∀ j, j < s.heap.length → ∀ q ∈ (s.getStat j).dirties,
    (s.getStat q.1).state ≠ .clean)

def NotClean (s : LintState) (sid : Nat) : Prop :=
  (s.getStat sid).state ≠ .clean

theorem statMono_refl (a : funcStat) : StatMono a a :=
  ⟨rfl, rfl, rfl, fun h => ⟨h, Or.inl rfl⟩, fun h => ⟨h, rfl, rfl⟩, id⟩

theorem statMono_trans {a b c : funcStat} (h1 : StatMono a b)
    (h2 : StatMono b c) : StatMono a c := by
  obtain ⟨f1, r1, t1, d1, c1, n1⟩ := h1
  obtain ⟨f2, r2, t2, d2, c2, n2⟩ := h2
  refine ⟨f2.trans f1, r2.trans r1, t2.trans t1, ?_, ?_, fun h => n2 (n1 h)⟩
  · intro h
    obtain ⟨hb, hw⟩ := d1 h
    obtain ⟨hc, hw'⟩ := d2 hb
    refine ⟨hc, ?_⟩
    rcases hw with hw | hw <;> rcases hw' with hw' | hw'
    · exact Or.inl (hw'.trans hw)
    · exact Or.inr (by rw [hw] at hw'; exact hw')
    · exact Or.inr (by rw [hw']; exact hw)
    · exact Or.inr (lt_trans hw' hw)
  · intro h
    obtain ⟨hb, hw, hd⟩ := c1 h
    obtain ⟨hc, hw', hd'⟩ := c2 hb
    exact ⟨hc, hw'.trans hw, hd'.trans hd⟩

theorem mono_refl (s : LintState) : Mono s s :=
  ⟨le_refl _, fun i _ => statMono_refl _, fun _ h => h⟩

theorem mono_trans {s s' s'' : LintState} (h1 : Mono s s') (h2 : Mono s' s'') :
    Mono s s'' := by
  obtain ⟨l1, m1, n1⟩ := h1
  obtain ⟨l2, m2, n2⟩ := h2
  exact ⟨l1.trans l2,
    fun i hi => statMono_trans (m1 i hi) (m2 i (lt_of_lt_of_le hi l1)),
    fun sid h => n2 sid (n1 sid h)⟩

theorem getStat_updStat_ne (s : LintState) (i j : Nat) (f : funcStat → funcStat)
    (h : i ≠ j) : (s.updStat i f).getStat j = s.getStat j := by
  simp [LintState.updStat, LintState.getStat, List.getD, List.getElem?_set_ne h]

theorem getStat_updStat_self (s : LintState) (i : Nat) (f : funcStat → funcStat)
    (h : i < s.heap.length) : (s.updStat i f).getStat i = f (s.getStat i) := by
  simp [LintState.updStat, LintState.getStat, List.getD,
    List.getElem?_set_self, h, List.getElem?_eq_getElem]

theorem getStat_updStat_oob (s : LintState) (i : Nat) (f : funcStat → funcStat)
    (h : s.heap.length ≤ i) : (s.updStat i f) = { s with heap := s.heap } := by
  simp [LintState.updStat, List.set_eq_of_length_le h]

theorem updStat_length (s : LintState) (i : Nat) (f : funcStat → funcStat) :
    (s.updStat i f).heap.length = s.heap.length := by
  simp [LintState.updStat]

theorem default_state_notClean : (default : funcStat).state ≠ FState.clean := by decide

theorem getStat_oob (s : LintState) (i : Nat) (h : s.heap.length ≤ i) :
    s.getStat i = default := by
  simp only [LintState.getStat, List.getD]
  rw [List.get?_eq_none.mpr h]
  rfl

theorem getStat_append_lt (s : LintState) (st : funcStat) (m : List (Nat × Nat))
    (wk : List Nat) (i : Nat) (h : i < s.heap.length) :
    ({ heap := s.heap ++ [st], stats := m, work := wk,
       panicMsg := s.panicMsg } : LintState).getStat i = s.getStat i := by
  simp [LintState.getStat, List.getD, List.getElem?_append, h]

theorem getStat_append_self (s : LintState) (st : funcStat) (m : List (Nat × Nat))
    (wk : List Nat) :
    ({ heap := s.heap ++ [st], stats := m, work := wk,
       panicMsg := s.panicMsg } : LintState).getStat s.heap.length = st := by
  simp [LintState.getStat, List.getD, List.getElem?_append]

theorem getStat_append_gt (s : LintState) (st : funcStat) (m : List (Nat × Nat))
    (wk : List Nat) (i : Nat) (h : s.heap.length < i) :
    ({ heap := s.heap ++ [st], stats := m, work := wk,
       panicMsg := s.panicMsg } : LintState).getStat i = default := by
  simp only [LintState.getStat, List.getD]
  rw [List.get?_eq_none.mpr (by simp; omega)]
  rfl

theorem mono_append (s : LintState) (st : funcStat) (hst : st.state ≠ .clean)
    (m : List (Nat × Nat)) (wk : List Nat) :
    Mono s { heap := s.heap ++ [st], stats := m, work := wk,
             panicMsg := s.panicMsg } := by
  refine ⟨by simp, ?_, ?_⟩
  · intro i hi
    rw [getStat_append_lt s st m wk i hi]
    exact statMono_refl _
  · intro sid h
    rcases Nat.lt_trichotomy sid s.heap.length with hi | hi | hi
    · rw [getStat_append_lt s st m wk sid hi]; exact h
    · subst hi; rw [getStat_append_self]; exact hst
    · rw [getStat_append_gt s st m wk sid hi]; exact default_state_notClean

theorem wf_append (s : LintState) (st : funcStat) (hw : Wf s)
    (hst : st.state ≠ .dirty) (hstc : st.state ≠ .clean) (hd : st.dirties = [])
    (m : List (Nat × Nat)) (wk : List Nat) :
    Wf { heap := s.heap ++ [st], stats := m, work := wk,
         panicMsg := s.panicMsg } := by
  constructor
  · intro i hi hdirty
    simp only [List.length_append, List.length_cons, List.length_nil] at hi
    rcases Nat.lt_trichotomy i s.heap.length with h2 | h2 | h2
    · rw [getStat_append_lt s st m wk i h2] at hdirty ⊢
      exact hw.1 i h2 hdirty
    · subst h2
      rw [getStat_append_self] at hdirty
      exact absurd hdirty hst
    · omega
  · intro j hj q hq
    simp only [List.length_append, List.length_cons, List.length_nil] at hj
    rcases Nat.lt_trichotomy j s.heap.length with h2 | h2 | h2
    · rw [getStat_append_lt s st m wk j h2] at hq
      have hx := hw.2 j h2 q hq
      rcases Nat.lt_trichotomy q.1 s.heap.length with h3 | h3 | h3
      · rw [getStat_append_lt s st m wk q.1 h3]; exact hx
      · rw [h3, getStat_append_self]; exact hstc
      · rw [getStat_append_gt s st m wk q.1 h3]; exact default_state_notClean
    · subst h2
      rw [getStat_append_self] at hq
      rw [hd] at hq
      exact absurd hq (List.not_mem_nil q)
    · omega

theorem mono_of_heap_eq {s s' : LintState} (h : s'.heap = s.heap) : Mono s s' := by
  have e : ∀ j, s'.getStat j = s.getStat j := fun j => by
    simp [LintState.getStat, h]
  refine ⟨by rw [h], ?_, ?_⟩
  · intro i _
    rw [e]
    exact statMono_refl _
  · intro sid hs
    rw [e]
    exact hs

theorem wf_of_heap_eq {s s' : LintState} (h : s'.heap = s.heap) (hw : Wf s) :
    Wf s' := by
  have e : ∀ j, s'.getStat j = s.getStat j := fun j => by
    simp [LintState.getStat, h]
  constructor
  · intro i hi hd
    rw [e] at hd ⊢
    exact hw.1 i (by rw [h] at hi; exact hi) hd
  · intro j hj q hq
    rw [e] at hq ⊢
    exact hw.2 j (by rw [h] at hj; exact hj) q hq

theorem mono_setPanic (s : LintState) (m : String) : Mono s (s.setPanic m) :=
  mono_of_heap_eq rfl

theorem wf_setPanic (s : LintState) (m : String) (hw : Wf s) :
    Wf (s.setPanic m) :=
  wf_of_heap_eq rfl hw

theorem statF_wf_mono (c : Ctx) (fn : Nat) (s : LintState) (hw : Wf s) :
    Wf (statF c fn s).1 ∧ Mono s (statF c fn s).1 := by
  unfold statF
  by_cases hp : s.panicMsg.isSome
  · simp only [hp, if_true]
    exact ⟨hw, mono_refl s⟩
  · simp only [hp, Bool.false_eq_true, if_false]
    cases hfind : mapFind s.stats fn with
    | some sid => exact ⟨hw, mono_refl s⟩
    | none =>
      have hfresh : (freshStat fn).state ≠ .clean := by simp [freshStat]
      have hfreshd : (freshStat fn).state ≠ .dirty := by simp [freshStat]
      have hwn : Wf (statNew fn s).1 := by
        simp only [statNew]
        exact wf_append s (freshStat fn) hw hfreshd hfresh rfl _ _
      have hmn : Mono s (statNew fn s).1 := by
        simp only [statNew]
        exact mono_append s (freshStat fn) hfresh _ _
      by_cases hres : (c.prog.funcs.getD fn default).results.isEmpty
      · simp only [hres, if_true]
        refine ⟨wf_of_heap_eq rfl hwn, mono_trans hmn (mono_of_heap_eq rfl)⟩
      · simp only [hres, Bool.false_eq_true, if_false]
        by_cases htidx : (targetIndexesOf c fn).isEmpty
        · simp only [htidx, if_true]
          refine ⟨wf_of_heap_eq rfl hwn, mono_trans hmn (mono_of_heap_eq rfl)⟩
        · simp only [htidx, Bool.false_eq_true, if_false]
          -- update of the fresh stat's returns/targetIndexes
          have hlen : (statNew fn s).2 < (statNew fn s).1.heap.length := by
            simp [statNew]
          have hget : (statNew fn s).1.getStat (statNew fn s).2 = freshStat fn := by
            simp only [statNew]
            exact getStat_append_self s (freshStat fn) _ _
          constructor
          · -- Wf
            constructor
            · intro i hi hd
              rw [updStat_length] at hi
              by_cases hieq : i = (statNew fn s).2
              · rw [hieq, getStat_updStat_self _ _ _ hlen, hget] at hd
                exact absurd hd hfreshd
              · rw [getStat_updStat_ne _ _ _ _ (fun hh => hieq hh.symm)] at hd ⊢
                exact hwn.1 i hi hd
            · intro j hj q hq
              rw [updStat_length] at hj
              by_cases hjeq : j = (statNew fn s).2
              · rw [hjeq, getStat_updStat_self _ _ _ hlen, hget] at hq
                exact absurd hq (List.not_mem_nil q)
              · rw [getStat_updStat_ne _ _ _ _ (fun hh => hjeq hh.symm)] at hq
                have hx := hwn.2 j hj q hq
                by_cases hq1 : q.1 = (statNew fn s).2
                · rw [hq1, getStat_updStat_self _ _ _ hlen, hget]
                  exact hfresh
                · rw [getStat_updStat_ne _ _ _ _ (fun hh => hq1 hh.symm)]
                  exact hx
          · -- Mono, proved directly against `s`
            have hne : ∀ i, i < s.heap.length → i ≠ (statNew fn s).2 := by
              intro i hi
              simp only [statNew]
              omega
            refine ⟨?_, ?_, ?_⟩
            · rw [updStat_length]
              simp [statNew]
            · intro i hi
              rw [getStat_updStat_ne _ _ _ _ (fun hh => (hne i hi) hh.symm)]
              have : (statNew fn s).1.getStat i = s.getStat i := by
                simp only [statNew]
                exact getStat_append_lt s (freshStat fn) _ _ i hi
              rw [this]
              exact statMono_refl _
            · intro sid hs
              by_cases hieq : sid = (statNew fn s).2
              · rw [hieq, getStat_updStat_self _ _ _ hlen, hget]
                simp [freshStat]
              · rw [getStat_updStat_ne _ _ _ _ (fun hh => hieq hh.symm)]
                by_cases hlt : sid < s.heap.length
                · have : (statNew fn s).1.getStat sid = s.getStat sid := by
                    simp only [statNew]
                    exact getStat_append_lt s (freshStat fn) _ _ sid hlt
                  rw [this]
                  exact hs
                · have hgt : s.heap.length < sid := by
                    rcases Nat.lt_or_ge sid s.heap.length with h1 | h1
                    · omega
                    · rcases Nat.eq_or_lt_of_le h1 with h2 | h2
                      · exact absurd h2.symm (by simp only [statNew] at hieq; exact hieq)
                      · exact h2
                  have : (statNew fn s).1.getStat sid = default := by
                    simp only [statNew]
                    exact getStat_append_gt s (freshStat fn) _ _ sid hgt
                  rw [this]
                  exact default_state_notClean




theorem notClean_mono {s s' : LintState} (m : Mono s s') {sid : Nat}
    (h : NotClean s sid) : NotClean s' sid := m.2.2 sid h

theorem markProp_nil (c : Ctx) (fuel : Nat) (why : List DirtyReason)
    (s : LintState) : markProp c fuel [] why s = s := by
  cases fuel <;> simp [markProp]

theorem default_dirties_nil : (default : funcStat).dirties = [] := rfl

/-- States evolve the same way at every index under an update that touches
only the `dirties` field of one non-Dirty, non-Clean stat; packaged facts
for `decide`'s dependency-registration branch. -/
theorem wf_mono_dirtiesInsert (s : LintState) (nsid dep call : Nat)
    (hw : Wf s) (hdep : NotClean s dep)
    (hst : (s.getStat nsid).state ≠ .dirty ∧ (s.getStat nsid).state ≠ .clean) :
    Wf (s.updStat nsid (fun st =>
      { st with dirties := dirtiesInsert st.dirties dep call })) ∧
    Mono s (s.updStat nsid (fun st =>
      { st with dirties := dirtiesInsert st.dirties dep call })) := by
  by_cases hsl : nsid < s.heap.length
  · have e1 : (s.updStat nsid (fun st =>
        { st with dirties := dirtiesInsert st.dirties dep call })).getStat nsid =
        { s.getStat nsid with
          dirties := dirtiesInsert (s.getStat nsid).dirties dep call } := by
      rw [getStat_updStat_self _ _ _ hsl]
    have e2 : ∀ j, j ≠ nsid →
        (s.updStat nsid (fun st =>
          { st with dirties := dirtiesInsert st.dirties dep call })).getStat j =
        s.getStat j := by
      intro j hj
      rw [getStat_updStat_ne _ _ _ _ (fun h => hj h.symm)]
    have estate : ∀ j, ((s.updStat nsid (fun st =>
        { st with dirties := dirtiesInsert st.dirties dep call })).getStat j).state =
        (s.getStat j).state := by
      intro j
      by_cases hj : j = nsid
      · rw [hj, e1]
      · rw [e2 j hj]
    constructor
    · constructor
      · intro i hi hdi
        rw [updStat_length] at hi
        by_cases hieq : i = nsid
        · rw [hieq, e1] at hdi
          exact absurd hdi hst.1
        · rw [e2 i hieq] at hdi ⊢
          exact hw.1 i hi hdi
      · intro j hj q hq
        rw [updStat_length] at hj
        by_cases hjeq : j = nsid
        · rw [hjeq, e1] at hq
          have hq' : q ∈ dirtiesInsert (s.getStat nsid).dirties dep call := hq
          rw [dirtiesInsert] at hq'
          rcases List.mem_cons.1 hq' with hq2 | hq2
          · rw [hq2]
            intro hcl
            rw [estate dep] at hcl
            exact hdep hcl
          · have hq3 : q ∈ (s.getStat nsid).dirties :=
              List.mem_of_mem_filter hq2
            have hx := hw.2 nsid hsl q hq3
            intro hcl
            rw [estate q.1] at hcl
            exact hx hcl
        · rw [e2 j hjeq] at hq
          have hx := hw.2 j hj q hq
          intro hcl
          rw [estate q.1] at hcl
          exact hx hcl
    · refine ⟨by rw [updStat_length], ?_, ?_⟩
      · intro i hi
        by_cases hieq : i = nsid
        · rw [hieq, e1]
          refine ⟨rfl, rfl, rfl, ?_, ?_, ?_⟩
          · intro hdd
            rw [hieq] at hi
            exact absurd hdd hst.1
          · intro hcl
            exact absurd hcl hst.2
          · intro h hcl
            exact h hcl
        · rw [e2 i hieq]
          exact statMono_refl _
      · intro j hj
        intro hcl
        rw [estate j] at hcl
        exact hj hcl
  · have hge : s.heap.length ≤ nsid := Nat.le_of_not_lt hsl
    have hheq : (s.updStat nsid (fun st =>
        { st with dirties := dirtiesInsert st.dirties dep call })).heap = s.heap := by
      simp only [LintState.updStat]
      exact List.set_eq_of_length_le hge
    exact ⟨wf_of_heap_eq hheq hw, mono_of_heap_eq hheq⟩

/-- Facts for `analyze`'s transition to Analyzing. -/
theorem wf_mono_setAnalyzing (s : LintState) (sid : Nat) (hw : Wf s)
    (hst : (s.getStat sid).state = .unknown) :
    Wf (s.updStat sid (fun t => { t with state := .analyzing })) ∧
    Mono s (s.updStat sid (fun t => { t with state := .analyzing })) ∧
    NotClean (s.updStat sid (fun t => { t with state := .analyzing })) sid := by
  by_cases hsl : sid < s.heap.length
  · have e1 : (s.updStat sid
        (fun t => { t with state := FState.analyzing })).getStat sid =
        { s.getStat sid with state := FState.analyzing } := by
      rw [getStat_updStat_self _ _ _ hsl]
    have e2 : ∀ j, j ≠ sid →
        (s.updStat sid (fun t => { t with state := FState.analyzing })).getStat j =
        s.getStat j := by
      intro j hj
      rw [getStat_updStat_ne _ _ _ _ (fun h => hj h.symm)]
    refine ⟨⟨?_, ?_⟩, ⟨by rw [updStat_length], ?_, ?_⟩, ?_⟩
    · intro i hi hdi
      rw [updStat_length] at hi
      by_cases hieq : i = sid
      · rw [hieq, e1] at hdi
        exact FState.noConfusion hdi
      · rw [e2 i hieq] at hdi ⊢
        exact hw.1 i hi hdi
    · intro j hj q hq
      rw [updStat_length] at hj
      by_cases hjeq : j = sid
      · rw [hjeq, e1] at hq
        have hq' : q ∈ (s.getStat sid).dirties := hq
        have hx := hw.2 sid hsl q hq'
        by_cases hq1 : q.1 = sid
        · rw [hq1, e1]
          intro hcl
          exact FState.noConfusion hcl
        · rw [e2 q.1 hq1]
          exact hx
      · rw [e2 j hjeq] at hq
        have hx := hw.2 j hj q hq
        by_cases hq1 : q.1 = sid
        · rw [hq1, e1]
          intro hcl
          exact FState.noConfusion hcl
        · rw [e2 q.1 hq1]
          exact hx
    · intro i hi
      by_cases hieq : i = sid
      · rw [hieq, e1]
        refine ⟨rfl, rfl, rfl, ?_, ?_, ?_⟩
        · intro hdd
          rw [hieq] at hi
          exact absurd (hst ▸ hdd) (by intro h; exact FState.noConfusion h)
        · intro hcl
          exact absurd (hst ▸ hcl) (by intro h; exact FState.noConfusion h)
        · intro _ hcl
          exact FState.noConfusion hcl
      · rw [e2 i hieq]
        exact statMono_refl _
    · intro j hj
      by_cases hjeq : j = sid
      · rw [hjeq, e1]
        intro hcl
        exact FState.noConfusion hcl
      · rw [e2 j hjeq]
        exact hj
    · simp only [NotClean]
      rw [e1]
      intro hcl
      exact FState.noConfusion hcl
  · have hge : s.heap.length ≤ sid := Nat.le_of_not_lt hsl
    have hheq : (s.updStat sid
        (fun t => { t with state := FState.analyzing })).heap = s.heap := by
      simp only [LintState.updStat]
      exact List.set_eq_of_length_le hge
    refine ⟨wf_of_heap_eq hheq hw, mono_of_heap_eq hheq, ?_⟩
    have hgs : (s.updStat sid (fun t => { t with state := FState.analyzing })).getStat
        sid = s.getStat sid := by
      simp [LintState.getStat, hheq]
    simp only [NotClean]
    rw [hgs, getStat_oob s sid hge]
    exact default_state_notClean



set_option maxHeartbeats 3200000 in
/-- The work-phase invariant: every analysis operation preserves
well-formedness and evolves each stat monotonically (extraction fields
frozen, Dirty permanent with strictly shrinking `why`, Clean untouched,
non-Clean never becoming Clean). -/
theorem workPhase (fuel : Nat) :
    (∀ (c : Ctx) (sid : Nat) (s : LintState), Wf s →
      Wf (analyzeF c fuel sid s) ∧ Mono s (analyzeF c fuel sid s)) ∧
    (∀ (c : Ctx) (sid : Nat) (rets : List (List Nat)) (tIdx seen : List Nat)
      (s : LintState), Wf s → NotClean s sid →
      Wf (analyzeRets c fuel sid rets tIdx seen s) ∧
      Mono s (analyzeRets c fuel sid rets tIdx seen s)) ∧
    (∀ (c : Ctx) (sid : Nat) (rvals idxs seen : List Nat) (s : LintState),
      Wf s → NotClean s sid →
      Wf (analyzeIdxs c fuel sid rvals idxs seen s).1 ∧
      Mono s (analyzeIdxs c fuel sid rvals idxs seen s).1) ∧
    (∀ (c : Ctx) (sid v : Nat) (seen : List Nat) (s : LintState),
      Wf s → NotClean s sid →
      Wf (decideF c fuel sid v seen s).1 ∧
      Mono s (decideF c fuel sid v seen s).1) ∧
    (∀ (c : Ctx) (sid : Nat) (es seen : List Nat) (s : LintState),
      Wf s → NotClean s sid →
      Wf (decidePhis c fuel sid es seen s).1 ∧
      Mono s (decidePhis c fuel sid es seen s).1) ∧
    (∀ (c : Ctx) (sid : Nat) (why : List DirtyReason) (s : LintState),
      Wf s → NotClean s sid → why ≠ [] →
      Wf (markDirtyF c fuel sid why s) ∧ Mono s (markDirtyF c fuel sid why s)) ∧
    (∀ (c : Ctx) (entries : List (Nat × Nat)) (why : List DirtyReason)
      (s : LintState), Wf s → (∀ q ∈ entries, NotClean s q.1) →
      Wf (markProp c fuel entries why s) ∧
      Mono s (markProp c fuel entries why s)) := by
  induction fuel with
  | zero =>
    refine ⟨?_, ?_, ?_, ?_, ?_, ?_, ?_⟩
    · intro c sid s hw
      simp only [analyzeF]
      exact ⟨hw, mono_refl s⟩
    · intro c sid rets tIdx seen s hw _
      simp only [analyzeRets]
      exact ⟨hw, mono_refl s⟩
    · intro c sid rvals idxs seen s hw _
      simp only [analyzeIdxs]
      exact ⟨hw, mono_refl s⟩
    · intro c sid v seen s hw _
      simp only [decideF]
      exact ⟨hw, mono_refl s⟩
    · intro c sid es seen s hw _
      simp only [decidePhis]
      exact ⟨hw, mono_refl s⟩
    · intro c sid why s hw _ _
      simp only [markDirtyF]
      exact ⟨hw, mono_refl s⟩
    · intro c entries why s hw _
      simp only [markProp]
      exact ⟨hw, mono_refl s⟩
  | succ fuel ih =>
    obtain ⟨ihA, ihR, ihI, ihD, ihP, ihM, ihQ⟩ := ih
    have hmarkProp : ∀ (c : Ctx) (entries : List (Nat × Nat))
        (why : List DirtyReason) (s : LintState), Wf s →
        (∀ q ∈ entries, NotClean s q.1) →
        Wf (markProp c (fuel+1) entries why s) ∧
        Mono s (markProp c (fuel+1) entries why s) := by
      intro c entries why s hw hents
      match entries with
      | [] =>
        simp only [markProp]
        exact ⟨hw, mono_refl s⟩
      | q :: rest =>
        simp only [markProp]
        have h1 := ihM c q.1 ({ reason := "calls", value := q.2 } :: why) s hw
          (hents q (by simp)) (by simp)
        have h2 := ihQ c rest why _ h1.1
          (fun q' hq' => notClean_mono h1.2 (hents q' (by simp [hq'])))
        exact ⟨h2.1, mono_trans h1.2 h2.2⟩
    have hmarkDirty : ∀ (c : Ctx) (sid : Nat) (why : List DirtyReason)
        (s : LintState), Wf s → NotClean s sid → why ≠ [] →
        Wf (markDirtyF c (fuel+1) sid why s) ∧
        Mono s (markDirtyF c (fuel+1) sid why s) := by
      intro c sid why s hw hnc hwhy
      simp only [markDirtyF]
      by_cases hp : s.panicMsg.isSome
      · simp only [hp, if_true]
        exact ⟨hw, mono_refl s⟩
      · simp only [hp, Bool.false_eq_true, if_false]
        by_cases hch :
            ((s.getStat sid).why.isEmpty ||
              decide (why.length < (s.getStat sid).why.length)) = true
        · simp only [hch, if_true, Bool.true_eq_false, and_false, if_false]
          by_cases hsl : sid < s.heap.length
          · have hlen1 : sid < (s.updStat sid
                (fun t => { t with why := why })).heap.length := by
              rw [updStat_length]; exact hsl
            have e1 : ((s.updStat sid (fun t => { t with why := why })).updStat sid
                (fun t => { t with state := FState.dirty })).getStat sid =
                { s.getStat sid with why := why, state := FState.dirty } := by
              rw [getStat_updStat_self _ _ _ hlen1,
                getStat_updStat_self _ _ _ hsl]
            have e2 : ∀ j, j ≠ sid →
                ((s.updStat sid (fun t => { t with why := why })).updStat sid
                  (fun t => { t with state := FState.dirty })).getStat j =
                s.getStat j := by
              intro j hj
              rw [getStat_updStat_ne _ _ _ _ (fun h => hj h.symm),
                getStat_updStat_ne _ _ _ _ (fun h => hj h.symm)]
            have hlen2 : ((s.updStat sid (fun t => { t with why := why })).updStat sid
                (fun t => { t with state := FState.dirty })).heap.length =
                s.heap.length := by
              rw [updStat_length, updStat_length]
            have hwf2 : Wf ((s.updStat sid (fun t => { t with why := why })).updStat
                sid (fun t => { t with state := FState.dirty })) := by
              constructor
              · intro i hi hdi
                rw [hlen2] at hi
                by_cases hieq : i = sid
                · rw [hieq]
                  rw [e1]
                  exact hwhy
                · rw [e2 i hieq] at hdi ⊢
                  exact hw.1 i hi hdi
              · intro j hj q hq
                rw [hlen2] at hj
                by_cases hjeq : j = sid
                · rw [hjeq] at hq hj
                  rw [e1] at hq
                  have hq' : q ∈ (s.getStat sid).dirties := hq
                  have hx := hw.2 sid hj q hq'
                  by_cases hq1 : q.1 = sid
                  · rw [hq1, e1]
                    intro hcl
                    exact FState.noConfusion hcl
                  · rw [e2 q.1 hq1]
                    exact hx
                · rw [e2 j hjeq] at hq
                  have hx := hw.2 j hj q hq
                  by_cases hq1 : q.1 = sid
                  · rw [hq1, e1]
                    intro hcl
                    exact FState.noConfusion hcl
                  · rw [e2 q.1 hq1]
                    exact hx
            have hmono2 : Mono s ((s.updStat sid (fun t => { t with why := why })).updStat
                sid (fun t => { t with state := FState.dirty })) := by
              refine ⟨by rw [hlen2], ?_, ?_⟩
              · intro i hi
                by_cases hieq : i = sid
                · rw [hieq, e1]
                  refine ⟨rfl, rfl, rfl, ?_, ?_, ?_⟩
                  · intro hdd
                    refine ⟨rfl, ?_⟩
                    rcases Bool.or_eq_true_iff.1 hch with hemp | hlt
                    · exact absurd (List.isEmpty_iff.1 hemp) (hw.1 sid hsl hdd)
                    · exact Or.inr (of_decide_eq_true hlt)
                  · intro hcl
                    exact absurd hcl hnc
                  · intro _ hcl
                    exact FState.noConfusion hcl
                · rw [e2 i hieq]
                  exact statMono_refl _
              · intro j hj
                by_cases hjeq : j = sid
                · rw [hjeq, e1]
                  intro hcl
                  exact FState.noConfusion hcl
                · rw [e2 j hjeq]
                  exact hj
            have hents : ∀ q ∈ (s.getStat sid).dirties,
                NotClean ((s.updStat sid (fun t => { t with why := why })).updStat
                  sid (fun t => { t with state := FState.dirty })) q.1 :=
              fun q hq => notClean_mono hmono2 (hw.2 sid hsl q hq)
            have hfin := ihQ c (s.getStat sid).dirties why _ hwf2 hents
            exact ⟨hfin.1, mono_trans hmono2 hfin.2⟩
          · have hge : s.heap.length ≤ sid := Nat.le_of_not_lt hsl
            have hdef : s.getStat sid = default := getStat_oob s sid hge
            have hs2heap : ((s.updStat sid (fun t => { t with why := why })).updStat
                sid (fun t => { t with state := FState.dirty })).heap = s.heap := by
              simp only [LintState.updStat, List.set_set]
              exact List.set_eq_of_length_le hge
            rw [hdef, default_dirties_nil, markProp_nil]
            exact ⟨wf_of_heap_eq hs2heap hw, mono_of_heap_eq hs2heap⟩
        · have hchf : ((s.getStat sid).why.isEmpty ||
              decide (why.length < (s.getStat sid).why.length)) = false := by
            revert hch
            cases ((s.getStat sid).why.isEmpty ||
              decide (why.length < (s.getStat sid).why.length)) <;> simp
          simp only [hchf, Bool.false_eq_true, if_false, and_true]
          by_cases hd : (s.getStat sid).state = FState.dirty
          · rw [if_pos hd]
            exact ⟨hw, mono_refl s⟩
          · rw [if_neg hd]
            have hwne : (s.getStat sid).why ≠ [] := by
              intro h
              rw [h] at hchf
              simp at hchf
            by_cases hsl : sid < s.heap.length
            · have e1 : (s.updStat sid
                  (fun t => { t with state := FState.dirty })).getStat sid =
                  { s.getStat sid with state := FState.dirty } := by
                rw [getStat_updStat_self _ _ _ hsl]
              have e2 : ∀ j, j ≠ sid →
                  (s.updStat sid (fun t => { t with state := FState.dirty })).getStat j =
                  s.getStat j := by
                intro j hj
                rw [getStat_updStat_ne _ _ _ _ (fun h => hj h.symm)]
              have hwf2 : Wf (s.updStat sid (fun t => { t with state := FState.dirty })) := by
                constructor
                · intro i hi hdi
                  rw [updStat_length] at hi
                  by_cases hieq : i = sid
                  · rw [hieq, e1]
                    exact hwne
                  · rw [e2 i hieq] at hdi ⊢
                    exact hw.1 i hi hdi
                · intro j hj q hq
                  rw [updStat_length] at hj
                  by_cases hjeq : j = sid
                  · rw [hjeq] at hq hj
                    rw [e1] at hq
                    have hq' : q ∈ (s.getStat sid).dirties := hq
                    have hx := hw.2 sid hj q hq'
                    by_cases hq1 : q.1 = sid
                    · rw [hq1, e1]
                      intro hcl
                      exact FState.noConfusion hcl
                    · rw [e2 q.1 hq1]
                      exact hx
                  · rw [e2 j hjeq] at hq
                    have hx := hw.2 j hj q hq
                    by_cases hq1 : q.1 = sid
                    · rw [hq1, e1]
                      intro hcl
                      exact FState.noConfusion hcl
                    · rw [e2 q.1 hq1]
                      exact hx
              have hmono2 : Mono s (s.updStat sid
                  (fun t => { t with state := FState.dirty })) := by
                refine ⟨by rw [updStat_length], ?_, ?_⟩
                · intro i hi
                  by_cases hieq : i = sid
                  · rw [hieq, e1]
                    refine ⟨rfl, rfl, rfl, ?_, ?_, ?_⟩
                    · intro hdd
                      exact absurd hdd hd
                    · intro hcl
                      exact absurd hcl hnc
                    · intro _ hcl
                      exact FState.noConfusion hcl
                  · rw [e2 i hieq]
                    exact statMono_refl _
                · intro j hj
                  by_cases hjeq : j = sid
                  · rw [hjeq, e1]
                    intro hcl
                    exact FState.noConfusion hcl
                  · rw [e2 j hjeq]
                    exact hj
              have hents : ∀ q ∈ (s.getStat sid).dirties,
                  NotClean (s.updStat sid (fun t => { t with state := FState.dirty })) q.1 :=
                fun q hq => notClean_mono hmono2 (hw.2 sid hsl q hq)
              have hfin := ihQ c (s.getStat sid).dirties why _ hwf2 hents
              exact ⟨hfin.1, mono_trans hmono2 hfin.2⟩
            · have hge : s.heap.length ≤ sid := Nat.le_of_not_lt hsl
              have hdef : s.getStat sid = default := getStat_oob s sid hge
              have hs2heap : (s.updStat sid
                  (fun t => { t with state := FState.dirty })).heap = s.heap := by
                simp only [LintState.updStat]
                exact List.set_eq_of_length_le hge
              rw [hdef, default_dirties_nil, markProp_nil]
              exact ⟨wf_of_heap_eq hs2heap hw, mono_of_heap_eq hs2heap⟩
    have hdecide : ∀ (c : Ctx) (sid v : Nat) (seen : List Nat) (s : LintState),
        Wf s → NotClean s sid →
        Wf (decideF c (fuel+1) sid v seen s).1 ∧
        Mono s (decideF c (fuel+1) sid v seen s).1 := by
      intro c sid v seen s hw hnc
      simp only [decideF]
      by_cases hp : s.panicMsg.isSome
      · simp only [hp, if_true]
        exact ⟨hw, mono_refl s⟩
      · simp only [hp, Bool.false_eq_true, if_false]
        by_cases hv : v ∈ seen
        · rw [if_pos hv]
          exact ⟨hw, mono_refl s⟩
        · rw [if_neg hv]
          cases hsh : c.shape v with
          | call callee ty =>
            cases callee with
            | some g =>
              dsimp only
              have h1 := statF_wf_mono c g s hw
              have h2 := ihA c (statF c g s).2 (statF c g s).1 h1.1
              have hm12 : Mono s (analyzeF c fuel (statF c g s).2 (statF c g s).1) :=
                mono_trans h1.2 h2.2
              cases hstate : ((analyzeF c fuel (statF c g s).2 (statF c g s).1).getStat
                  (statF c g s).2).state with
              | clean =>
                exact ⟨h2.1, hm12⟩
              | dirty =>
                have h3 := ihM c sid
                  ({ reason := "calls", value := v } ::
                    ((analyzeF c fuel (statF c g s).2 (statF c g s).1).getStat
                      (statF c g s).2).why)
                  (analyzeF c fuel (statF c g s).2 (statF c g s).1) h2.1
                  (notClean_mono hm12 hnc) (by simp)
                exact ⟨h3.1, mono_trans hm12 h3.2⟩
              | unknown =>
                have h3 := wf_mono_dirtiesInsert
                  (analyzeF c fuel (statF c g s).2 (statF c g s).1)
                  (statF c g s).2 sid v h2.1 (notClean_mono hm12 hnc)
                  (by rw [hstate]
                      exact ⟨fun h => FState.noConfusion h,
                        fun h => FState.noConfusion h⟩)
                exact ⟨h3.1, mono_trans hm12 h3.2⟩
              | analyzing =>
                have h3 := wf_mono_dirtiesInsert
                  (analyzeF c fuel (statF c g s).2 (statF c g s).1)
                  (statF c g s).2 sid v h2.1 (notClean_mono hm12 hnc)
                  (by rw [hstate]
                      exact ⟨fun h => FState.noConfusion h,
                        fun h => FState.noConfusion h⟩)
                exact ⟨h3.1, mono_trans hm12 h3.2⟩
            | none =>
              dsimp only
              have h3 := ihM c sid [{ reason := "callee not static", value := v }]
                s hw hnc (by simp)
              exact h3
          | const isNil ty =>
            dsimp only
            cases isNil with
            | true =>
              rw [if_pos rfl]
              exact ⟨hw, mono_refl s⟩
            | false =>
              rw [if_neg (by simp)]
              cases hall : isAllowed c.allowed ty with
              | none =>
                dsimp only
                exact ⟨wf_setPanic s tupleMsg hw, mono_setPanic s tupleMsg⟩
              | some b =>
                cases b with
                | true =>
                  dsimp only
                  exact ⟨hw, mono_refl s⟩
                | false =>
                  dsimp only
                  exact ihM c sid
                    [{ reason := "constant of type " ++ quoteType ty, value := v }]
                    s hw hnc (by simp)
          | extract tv ty =>
            dsimp only
            exact ihD c sid tv (v :: seen) s hw hnc
          | makeInterface x ty =>
            dsimp only
            exact ihD c sid x (v :: seen) s hw hnc
          | phi edges ty =>
            dsimp only
            exact ihP c sid edges (v :: seen) s hw hnc
          | typeAssert asserted ty =>
            dsimp only
            cases hall : isAllowed c.allowed asserted with
            | none =>
              dsimp only
              exact ⟨wf_setPanic s tupleMsg hw, mono_setPanic s tupleMsg⟩
            | some b =>
              cases b with
              | true =>
                dsimp only
                exact ⟨hw, mono_refl s⟩
              | false =>
                dsimp only
                exact ihM c sid
                  [{ reason := "assertion to " ++ quoteType asserted, value := v }]
                  s hw hnc (by simp)
          | unop op x ty =>
            dsimp only
            by_cases hop : op = UnTok.mul
            · rw [if_pos hop]
              exact ihD c sid x (v :: seen) s hw hnc
            · rw [if_neg hop]
              exact ⟨hw, mono_refl s⟩
          | basicVal ty =>
            dsimp only
            cases hall : isAllowed c.allowed ty with
            | none =>
              dsimp only
              exact ⟨wf_setPanic s tupleMsg hw, mono_setPanic s tupleMsg⟩
            | some b =>
              cases b with
              | true =>
                dsimp only
                exact ⟨hw, mono_refl s⟩
              | false =>
                dsimp only
                exact ihM c sid
                  [{ reason := "result of disallowed type " ++ quoteType ty,
                     value := v }]
                  s hw hnc (by simp)
    have hdecidePhis : ∀ (c : Ctx) (sid : Nat) (es seen : List Nat)
        (s : LintState), Wf s → NotClean s sid →
        Wf (decidePhis c (fuel+1) sid es seen s).1 ∧
        Mono s (decidePhis c (fuel+1) sid es seen s).1 := by
      intro c sid es seen s hw hnc
      match es with
      | [] =>
        simp only [decidePhis]
        exact ⟨hw, mono_refl s⟩
      | e :: rest =>
        simp only [decidePhis]
        have h1 := ihD c sid e seen s hw hnc
        have h2 := ihP c sid rest (decideF c fuel sid e seen s).2
          (decideF c fuel sid e seen s).1 h1.1 (notClean_mono h1.2 hnc)
        exact ⟨h2.1, mono_trans h1.2 h2.2⟩
    have hanalyzeIdxs : ∀ (c : Ctx) (sid : Nat) (rvals idxs seen : List Nat)
        (s : LintState), Wf s → NotClean s sid →
        Wf (analyzeIdxs c (fuel+1) sid rvals idxs seen s).1 ∧
        Mono s (analyzeIdxs c (fuel+1) sid rvals idxs seen s).1 := by
      intro c sid rvals idxs seen s hw hnc
      match idxs with
      | [] =>
        simp only [analyzeIdxs]
        exact ⟨hw, mono_refl s⟩
      | idx :: rest =>
        simp only [analyzeIdxs]
        have h1 := ihD c sid (rvals.getD idx 0) seen s hw hnc
        by_cases hcond : ((decideF c fuel sid (rvals.getD idx 0) seen s).1.getStat
            sid).state ≠ FState.analyzing
        · rw [if_pos hcond]
          exact h1
        · rw [if_neg hcond]
          have h2 := ihI c sid rvals rest
            (decideF c fuel sid (rvals.getD idx 0) seen s).2
            (decideF c fuel sid (rvals.getD idx 0) seen s).1 h1.1
            (notClean_mono h1.2 hnc)
          exact ⟨h2.1, mono_trans h1.2 h2.2⟩
    have hanalyzeRets : ∀ (c : Ctx) (sid : Nat) (rets : List (List Nat))
        (tIdx seen : List Nat) (s : LintState), Wf s → NotClean s sid →
        Wf (analyzeRets c (fuel+1) sid rets tIdx seen s) ∧
        Mono s (analyzeRets c (fuel+1) sid rets tIdx seen s) := by
      intro c sid rets tIdx seen s hw hnc
      match rets with
      | [] =>
        simp only [analyzeRets]
        exact ⟨hw, mono_refl s⟩
      | r :: rest =>
        simp only [analyzeRets]
        have h1 := ihI c sid r tIdx seen s hw hnc
        by_cases hcond : ((analyzeIdxs c fuel sid r tIdx seen s).1.getStat
            sid).state ≠ FState.analyzing
        · rw [if_pos hcond]
          exact h1
        · rw [if_neg hcond]
          have h2 := ihR c sid rest tIdx
            (analyzeIdxs c fuel sid r tIdx seen s).2
            (analyzeIdxs c fuel sid r tIdx seen s).1 h1.1
            (notClean_mono h1.2 hnc)
          exact ⟨h2.1, mono_trans h1.2 h2.2⟩
    have hanalyzeF : ∀ (c : Ctx) (sid : Nat) (s : LintState), Wf s →
        Wf (analyzeF c (fuel+1) sid s) ∧ Mono s (analyzeF c (fuel+1) sid s) := by
      intro c sid s hw
      simp only [analyzeF]
      by_cases hp : s.panicMsg.isSome
      · simp only [hp, if_true]
        exact ⟨hw, mono_refl s⟩
      · simp only [hp, Bool.false_eq_true, if_false]
        by_cases hst : (s.getStat sid).state ≠ FState.unknown
        · rw [if_pos hst]
          exact ⟨hw, mono_refl s⟩
        · rw [if_neg hst]
          have hstu : (s.getStat sid).state = FState.unknown := not_not.1 hst
          have h1 := wf_mono_setAnalyzing s sid hw hstu
          have h2 := ihR c sid (s.getStat sid).returns (s.getStat sid).targetIndexes
            [] (s.updStat sid (fun t => { t with state := FState.analyzing }))
            h1.1 h1.2.2
          exact ⟨h2.1, mono_trans h1.2.1 h2.2⟩
    exact ⟨hanalyzeF, hanalyzeRets, hanalyzeIdxs, hdecide, hdecidePhis,
      hmarkDirty, hmarkProp⟩



theorem cleanStep_stats (s : LintState) (sid : Nat) :
    (cleanStep s sid).stats = s.stats := by
  unfold cleanStep
  split <;> rfl

theorem sweepClean_stats (l : List Nat) : ∀ s : LintState,
    (sweepClean l s).stats = s.stats := by
  induction l with
  | nil => intro s; rfl
  | cons sid rest ih =>
    intro s
    simp only [sweepClean]
    rw [ih, cleanStep_stats]

theorem cleanStep_getStat_ne (s : LintState) (sid j : Nat) (h : j ≠ sid) :
    (cleanStep s sid).getStat j = s.getStat j := by
  unfold cleanStep
  split
  · exact getStat_updStat_ne s sid j _ (fun hh => h hh.symm)
  · rfl

theorem cleanStep_not_analyzing (s : LintState) (sid : Nat)
    (h : (s.getStat sid).state ≠ .analyzing) : cleanStep s sid = s := by
  unfold cleanStep
  rw [if_neg h]

theorem cleanStep_no_analyzing (s : LintState) (sid : Nat)
    (hlen : sid < s.heap.length) :
    ((cleanStep s sid).getStat sid).state ≠ .analyzing := by
  unfold cleanStep
  split
  · rw [getStat_updStat_self s sid _ hlen]
    intro h
    exact FState.noConfusion h
  · next h => exact h

theorem cleanStep_no_new_analyzing (s : LintState) (sid j : Nat)
    (h : ((s.getStat j).state ≠ .analyzing)) :
    ((cleanStep s sid).getStat j).state ≠ .analyzing := by
  by_cases hj : j = sid
  · subst hj
    rw [cleanStep_not_analyzing s j h]
    exact h
  · rw [cleanStep_getStat_ne s sid j hj]
    exact h

theorem cleanStep_length (s : LintState) (sid : Nat) :
    (cleanStep s sid).heap.length = s.heap.length := by
  unfold cleanStep
  split
  · rw [updStat_length]
  · rfl

theorem sweepClean_length (l : List Nat) : ∀ s : LintState,
    (sweepClean l s).heap.length = s.heap.length := by
  induction l with
  | nil => intro s; rfl
  | cons sid rest ih =>
    intro s
    simp only [sweepClean]
    rw [ih, cleanStep_length]

theorem sweepClean_no_new_analyzing (l : List Nat) : ∀ (s : LintState) (j : Nat),
    (s.getStat j).state ≠ .analyzing →
    ((sweepClean l s).getStat j).state ≠ .analyzing := by
  induction l with
  | nil => intro s j h; exact h
  | cons sid rest ih =>
    intro s j h
    simp only [sweepClean]
    exact ih _ j (cleanStep_no_new_analyzing s sid j h)

theorem sweepClean_mem_no_analyzing (l : List Nat) : ∀ (s : LintState) (sid : Nat),
    sid ∈ l → sid < s.heap.length →
    ((sweepClean l s).getStat sid).state ≠ .analyzing := by
  induction l with
  | nil =>
    intro s sid hmem
    exact absurd hmem (List.not_mem_nil sid)
  | cons a rest ih =>
    intro s sid hmem hlen
    simp only [sweepClean]
    rcases List.mem_cons.1 hmem with h | h
    · subst h
      exact sweepClean_no_new_analyzing rest _ sid (cleanStep_no_analyzing s sid hlen)
    · exact ih _ sid h (by rw [cleanStep_length]; exact hlen)

theorem mem_activeSids_of_mapFind (s : LintState) (fn sid : Nat)
    (h : mapFind s.stats fn = some sid) : sid ∈ activeSids s := by
  unfold activeSids
  apply List.mem_filterMap.2
  refine ⟨fn, ?_, h⟩
  apply List.mem_dedup.2
  unfold mapFind at h
  rcases Option.map_eq_some'.1 h with ⟨q, hq, _⟩
  have hqm := List.mem_of_find?_eq_some hq
  have hqk : q.1 = fn := by
    have hb := List.find?_some hq
    simpa using hb
  exact List.mem_map.2 ⟨q, hqm, hqk⟩

/-- After the final sweep, no function recorded in the `stats` map is still
Analyzing. -/
theorem cleanupPass_no_analyzing (s : LintState) (fn sid : Nat)
    (h : mapFind (cleanupPass s).stats fn = some sid) :
    ((cleanupPass s).getStat sid).state ≠ .analyzing := by
  unfold cleanupPass at h ⊢
  rw [sweepClean_stats] at h
  by_cases hlen : sid < s.heap.length
  · exact sweepClean_mem_no_analyzing _ s sid
      (mem_activeSids_of_mapFind s fn sid h) hlen
  · have : (sweepClean (activeSids s) s).getStat sid = default := by
      apply getStat_oob
      rw [sweepClean_length]
      omega
    rw [this]
    intro hc
    exact FState.noConfusion hc



theorem wf_mono_runWork (c : Ctx) (fuel : Nat) : ∀ (l : List Nat) (s : LintState),
    Wf s → Wf (runWork c fuel l s) ∧ Mono s (runWork c fuel l s) := by
  intro l
  induction l with
  | nil =>
    intro s hw
    exact ⟨hw, mono_refl s⟩
  | cons sid rest ih =>
    intro s hw
    simp only [runWork]
    have h1 := (workPhase fuel).1 c sid s hw
    have h2 := ih _ h1.1
    exact ⟨h2.1, mono_trans h1.2 h2.2⟩

theorem wf_mono_workLoop (c : Ctx) : ∀ (outer fuel : Nat) (s : LintState),
    Wf s → Wf (workLoop c outer fuel s) ∧ Mono s (workLoop c outer fuel s) := by
  intro outer
  induction outer with
  | zero =>
    intro fuel s hw
    exact ⟨hw, mono_refl s⟩
  | succ outer ih =>
    intro fuel s hw
    simp only [workLoop]
    by_cases he : s.work.isEmpty
    · simp only [he, if_true]
      exact ⟨hw, mono_refl s⟩
    · simp only [he, Bool.false_eq_true, if_false]
      have hwf' : Wf ({ s with work := ([] : List Nat) } : LintState) := wf_of_heap_eq rfl hw
      have h1 := wf_mono_runWork c fuel s.work { s with work := ([] : List Nat) } hwf'
      have h2 := ih fuel _ h1.1
      exact ⟨h2.1, mono_trans (mono_of_heap_eq rfl)
        (mono_trans h1.2 h2.2)⟩

theorem wf_mono_bootstrap (c : Ctx) : ∀ (roots : List Nat) (s : LintState),
    Wf s → Wf (bootstrap c roots s) ∧ Mono s (bootstrap c roots s) := by
  intro roots
  induction roots with
  | nil =>
    intro s hw
    exact ⟨hw, mono_refl s⟩
  | cons fn rest ih =>
    intro s hw
    simp only [bootstrap]
    have h1 := statF_wf_mono c fn s hw
    have h2 := ih _ h1.1
    exact ⟨h2.1, mono_trans h1.2 h2.2⟩

theorem wf_init : Wf initState := by
  unfold initState
  constructor
  · intro i hi hdi
    simp only [List.length_singleton] at hi
    interval_cases i
    · simp [LintState.getStat, List.getD, cleanStat] at hdi
  · intro j hj q hq
    simp only [List.length_singleton] at hj
    interval_cases j
    · simp [LintState.getStat, List.getD, cleanStat] at hq

/-- Shape of a successful `execute`: the final state is the cleanup of the
work loop's result, and the dirty list is collected from it. -/
theorem execute_ok_shape (l : RetLint) (env : ResolveEnv) (p : Program)
    (fo fi : Nat) (s : LintState) (dl : List (Nat × List DirtyReason))
    (h : execute l env p fo fi = .ok s dl) :
    ∃ (c : Ctx) (x : LintState),
      resolve env l.TargetName = .ok c.target ∧
      resolveList env l.AllowedNames = .ok c.allowed ∧
      c.prog = p ∧
      x = workLoop c fo fi (bootstrap c p.roots initState) ∧
      x.panicMsg = none ∧
      s = cleanupPass x ∧ dl = collectDirty c (cleanupPass x) := by
  unfold execute at h
  split at h
  · exact absurd h (by simp)
  · split at h
    · exact absurd h (by simp)
    · exact absurd h (by simp)
    · next target hres =>
      split at h
      · exact absurd h (by simp)
      · exact absurd h (by simp)
      · next allowed hresl =>
        dsimp only at h
        split at h
        · exact absurd h (by simp)
        · next hpn =>
          rw [ExecOutcome.ok.injEq] at h
          exact ⟨{ prog := p, target := target, allowed := allowed },
            workLoop { prog := p, target := target, allowed := allowed } fo fi
              (bootstrap { prog := p, target := target, allowed := allowed }
                p.roots initState),
            hres, hresl, rfl, rfl, hpn, h.1.symm, h.2.symm⟩




/-- The per-stat root-safety condition: every result at a target index of
the recorded returns is a `Safe` value. -/
def SafeRoots (c : Ctx) (st : funcStat) : Prop :=
  ∀ r ∈ st.returns, ∀ idx ∈ st.targetIndexes, Safe c (r.getD idx 0)

/-- The shield invariant for a protected function `f`: every stat recording
`f` is non-Dirty with safe roots, and no `dirties` entry points (within
bounds) at a stat recording `f`. -/
def Shielded (c : Ctx) (f : Nat) (s : LintState) : Prop :=
  (∀ sid, sid < s.heap.length → (s.getStat sid).fn = f →
    (s.getStat sid).state ≠ .dirty ∧ SafeRoots c (s.getStat sid)) ∧
  (∀ j, j < s.heap.length → ∀ q ∈ (s.getStat j).dirties,
    q.1 < s.heap.length ∧ (s.getStat q.1).fn ≠ f)

theorem shielded_of_heap_eq {c : Ctx} {f : Nat} {s s' : LintState}
    (h : s'.heap = s.heap) (hs : Shielded c f s) : Shielded c f s' := by
  have e : ∀ j, s'.getStat j = s.getStat j := fun j => by
    simp [LintState.getStat, h]
  constructor
  · intro sid hlen hfn
    rw [e] at hfn ⊢
    rw [h] at hlen
    exact hs.1 sid hlen hfn
  · intro j hj q hq
    rw [e] at hq
    rw [h] at hj
    have := hs.2 j hj q hq
    rw [e, h]
    exact this

theorem safe_no_call {c : Ctx} {v : Nat} {cal : Option Nat} {ty : GoType}
    (hsh : c.shape v = .call cal ty) (hS : Safe c v) : False := by
  cases hS <;> simp_all

theorem safe_no_extract {c : Ctx} {v t : Nat} {ty : GoType}
    (hsh : c.shape v = .extract t ty) (hS : Safe c v) : False := by
  cases hS <;> simp_all

theorem safe_const {c : Ctx} {v : Nat} {isNil : Bool} {ty : GoType}
    (hsh : c.shape v = .const isNil ty) (hS : Safe c v) :
    isNil = true ∨ isAllowed c.allowed ty = some true := by
  cases hS <;> simp_all

theorem safe_assert {c : Ctx} {v : Nat} {a ty : GoType}
    (hsh : c.shape v = .typeAssert a ty) (hS : Safe c v) :
    isAllowed c.allowed a = some true := by
  cases hS <;> simp_all

theorem safe_basic {c : Ctx} {v : Nat} {ty : GoType}
    (hsh : c.shape v = .basicVal ty) (hS : Safe c v) :
    isAllowed c.allowed ty = some true := by
  cases hS <;> simp_all

theorem safe_mkIntf {c : Ctx} {v x : Nat} {ty : GoType}
    (hsh : c.shape v = .makeInterface x ty) (hS : Safe c v) : Safe c x := by
  cases hS <;> simp_all

theorem safe_phi {c : Ctx} {v : Nat} {edges : List Nat} {ty : GoType}
    (hsh : c.shape v = .phi edges ty) (hS : Safe c v) :
    ∀ e ∈ edges, Safe c e := by
  cases hS <;> simp_all

theorem safe_unop {c : Ctx} {v : Nat} {op : UnTok} {x : Nat} {ty : GoType}
    (hsh : c.shape v = .unop op x ty) (hS : Safe c v) :
    op = .mul ∧ Safe c x := by
  cases hS <;> simp_all



theorem statF_shield (c : Ctx) (f : Nat)
    (Hsafe : ∀ r ∈ (c.prog.funcs.getD f default).returns,
      ∀ idx ∈ targetIndexesOf c f, Safe c (r.getD idx 0))
    (g : Nat) (s : LintState) (hs : Shielded c f s) :
    Shielded c f (statF c g s).1 := by
  unfold statF
  by_cases hp : s.panicMsg.isSome
  · simp only [hp, if_true]
    exact hs
  · simp only [hp, Bool.false_eq_true, if_false]
    cases hfind : mapFind s.stats g with
    | some sid => exact hs
    | none =>
      have hlenN : (statNew g s).1.heap.length = s.heap.length + 1 := by
        simp [statNew]
      have egetlt : ∀ i, i < s.heap.length →
          (statNew g s).1.getStat i = s.getStat i := by
        intro i hi
        simp only [statNew]
        exact getStat_append_lt s (freshStat g) _ _ i hi
      have egetself : (statNew g s).1.getStat s.heap.length = freshStat g := by
        simp only [statNew]
        exact getStat_append_self s (freshStat g) _ _
      have hshN : Shielded c f (statNew g s).1 := by
        constructor
        · intro sid hlen hfn
          rw [hlenN] at hlen
          rcases Nat.lt_trichotomy sid s.heap.length with h2 | h2 | h2
          · rw [egetlt sid h2] at hfn ⊢
            exact hs.1 sid h2 hfn
          · rw [h2] at hfn ⊢
            rw [egetself] at hfn ⊢
            constructor
            · intro hdd
              exact FState.noConfusion hdd
            · intro r hr
              exact absurd hr (List.not_mem_nil r)
          · omega
        · intro j hj q hq
          rw [hlenN] at hj
          rcases Nat.lt_trichotomy j s.heap.length with h2 | h2 | h2
          · rw [egetlt j h2] at hq
            have hx := hs.2 j h2 q hq
            rw [egetlt q.1 hx.1]
            rw [hlenN]
            exact ⟨by omega, hx.2⟩
          · rw [h2] at hq
            rw [egetself] at hq
            exact absurd hq (List.not_mem_nil q)
          · omega
      by_cases hres : (c.prog.funcs.getD g default).results.isEmpty
      · simp only [hres, if_true]
        exact shielded_of_heap_eq rfl hshN
      · simp only [hres, Bool.false_eq_true, if_false]
        by_cases htidx : (targetIndexesOf c g).isEmpty
        · simp only [htidx, if_true]
          exact shielded_of_heap_eq rfl hshN
        · simp only [htidx, Bool.false_eq_true, if_false]
          have hlen : (statNew g s).2 < (statNew g s).1.heap.length := by
            simp [statNew]
          have e1 : ((statNew g s).1.updStat (statNew g s).2 (fun st => { st with returns := (c.prog.funcs.getD g default).returns, targetIndexes := targetIndexesOf c g })).getStat (statNew g s).2 = { freshStat g with returns := (c.prog.funcs.getD g default).returns, targetIndexes := targetIndexesOf c g } := by
            rw [getStat_updStat_self _ _ _ hlen]
            rw [show (statNew g s).1.getStat (statNew g s).2 = freshStat g from egetself]
          have e2 : ∀ j, j ≠ (statNew g s).2 → ((statNew g s).1.updStat (statNew g s).2 (fun st => { st with returns := (c.prog.funcs.getD g default).returns, targetIndexes := targetIndexesOf c g })).getStat j = (statNew g s).1.getStat j := by
            intro j hj
            rw [getStat_updStat_ne _ _ _ _ (fun h => hj h.symm)]
          have efn : ∀ j, (((statNew g s).1.updStat (statNew g s).2 (fun st => { st with returns := (c.prog.funcs.getD g default).returns, targetIndexes := targetIndexesOf c g })).getStat j).fn = ((statNew g s).1.getStat j).fn := by
            intro j
            by_cases hj : j = (statNew g s).2
            · rw [hj, e1]
              rw [show (statNew g s).2 = s.heap.length from rfl, egetself]
            · rw [e2 j hj]
          constructor
          · intro sid hlen2 hfn
            rw [updStat_length] at hlen2
            by_cases hsid : sid = (statNew g s).2
            · rw [hsid] at hfn ⊢
              rw [e1] at hfn ⊢
              have hgf : g = f := hfn
              constructor
              · intro hdd
                exact FState.noConfusion hdd
              · intro r hr idx hidx
                rw [hgf] at hr hidx
                exact Hsafe r hr idx hidx
            · rw [e2 sid hsid] at hfn ⊢
              exact hshN.1 sid hlen2 hfn
          · intro j hj q hq
            rw [updStat_length] at hj
            by_cases hjq : j = (statNew g s).2
            · rw [hjq] at hq
              rw [e1] at hq
              exact absurd hq (List.not_mem_nil q)
            · rw [e2 j hjq] at hq
              have hx := hshN.2 j hj q hq
              rw [updStat_length]
              refine ⟨hx.1, ?_⟩
              rw [efn q.1]
              exact hx.2



theorem analyzeRets_nil (c : Ctx) (fuel sid : Nat) (tIdx seen : List Nat)
    (s : LintState) : analyzeRets c fuel sid [] tIdx seen s = s := by
  cases fuel <;> simp [analyzeRets]

theorem fn_stable_of_mono {s s' : LintState} (m : Mono s s') {i : Nat}
    (h : i < s.heap.length) : (s'.getStat i).fn = (s.getStat i).fn :=
  (m.2.1 i h).1

theorem lt_len_of_mono {s s' : LintState} (m : Mono s s') {i : Nat}
    (h : i < s.heap.length) : i < s'.heap.length :=
  lt_of_lt_of_le h m.1

/-- A stat update that keeps the extraction fields and `dirties`, and
introduces no new Dirty state, preserves the shield at any index. -/
theorem shielded_updStat_keep (c : Ctx) (f : Nat) (s : LintState) (sid : Nat)
    (u : funcStat → funcStat)
    (hfn : ∀ t, (u t).fn = t.fn) (hret : ∀ t, (u t).returns = t.returns)
    (htidx : ∀ t, (u t).targetIndexes = t.targetIndexes)
    (hdirt : ∀ t, (u t).dirties = t.dirties)
    (hnd : ∀ t, (u t).state = .dirty → t.state = .dirty)
    (hs : Shielded c f s) : Shielded c f (s.updStat sid u) := by
  by_cases hsl : sid < s.heap.length
  · have e1 : (s.updStat sid u).getStat sid = u (s.getStat sid) :=
      getStat_updStat_self s sid u hsl
    have e2 : ∀ j, j ≠ sid → (s.updStat sid u).getStat j = s.getStat j :=
      fun j hj => getStat_updStat_ne s sid j u (fun h => hj h.symm)
    have efn : ∀ j, ((s.updStat sid u).getStat j).fn = (s.getStat j).fn := by
      intro j
      by_cases hj : j = sid
      · rw [hj, e1, hfn]
      · rw [e2 j hj]
    constructor
    · intro i hi hif
      rw [updStat_length] at hi
      rw [efn] at hif
      have hx := hs.1 i hi hif
      by_cases hieq : i = sid
      · rw [hieq, e1]
        constructor
        · intro hdd
          exact absurd (hnd _ hdd) (by rw [← hieq]; exact hx.1)
        · intro r hr idx hidx
          rw [hret] at hr
          rw [htidx] at hidx
          rw [← hieq] at hr hidx
          exact hx.2 r hr idx hidx
      · rw [e2 i hieq]
        exact hx
    · intro j hj q hq
      rw [updStat_length] at hj
      have hdq : ((s.updStat sid u).getStat j).dirties = (s.getStat j).dirties := by
        by_cases hjeq : j = sid
        · rw [hjeq, e1, hdirt]
        · rw [e2 j hjeq]
      rw [hdq] at hq
      have hx := hs.2 j hj q hq
      rw [updStat_length, efn]
      exact hx
  · have hheq : (s.updStat sid u).heap = s.heap := by
      simp only [LintState.updStat]
      exact List.set_eq_of_length_le (Nat.le_of_not_lt hsl)
    exact shielded_of_heap_eq hheq hs

/-- Any stat update that keeps the extraction fields and `dirties` preserves
the shield when the updated stat does not record `f`. -/
theorem shielded_updStat_nonf (c : Ctx) (f : Nat) (s : LintState) (sid : Nat)
    (u : funcStat → funcStat)
    (hfn : ∀ t, (u t).fn = t.fn) (hret : ∀ t, (u t).returns = t.returns)
    (htidx : ∀ t, (u t).targetIndexes = t.targetIndexes)
    (hdirt : ∀ t, (u t).dirties = t.dirties)
    (havoid : ¬(sid < s.heap.length ∧ (s.getStat sid).fn = f))
    (hs : Shielded c f s) : Shielded c f (s.updStat sid u) := by
  by_cases hsl : sid < s.heap.length
  · have hfnne : (s.getStat sid).fn ≠ f := fun hc => havoid ⟨hsl, hc⟩
    have e1 : (s.updStat sid u).getStat sid = u (s.getStat sid) :=
      getStat_updStat_self s sid u hsl
    have e2 : ∀ j, j ≠ sid → (s.updStat sid u).getStat j = s.getStat j :=
      fun j hj => getStat_updStat_ne s sid j u (fun h => hj h.symm)
    have efn : ∀ j, ((s.updStat sid u).getStat j).fn = (s.getStat j).fn := by
      intro j
      by_cases hj : j = sid
      · rw [hj, e1, hfn]
      · rw [e2 j hj]
    constructor
    · intro i hi hif
      rw [updStat_length] at hi
      rw [efn] at hif
      have hx := hs.1 i hi hif
      by_cases hieq : i = sid
      · exact absurd (by rw [← hieq]; exact hif) hfnne
      · rw [e2 i hieq]
        exact hx
    · intro j hj q hq
      rw [updStat_length] at hj
      have hdq : ((s.updStat sid u).getStat j).dirties = (s.getStat j).dirties := by
        by_cases hjeq : j = sid
        · rw [hjeq, e1, hdirt]
        · rw [e2 j hjeq]
      rw [hdq] at hq
      have hx := hs.2 j hj q hq
      rw [updStat_length, efn]
      exact hx
  · have hheq : (s.updStat sid u).heap = s.heap := by
      simp only [LintState.updStat]
      exact List.set_eq_of_length_le (Nat.le_of_not_lt hsl)
    exact shielded_of_heap_eq hheq hs

/-- Registering a dependent that does not record `f` preserves the
shield. -/
theorem shielded_register (c : Ctx) (f : Nat) (s : LintState)
    (nsid dep call : Nat)
    (hdep : dep < s.heap.length ∧ (s.getStat dep).fn ≠ f)
    (hs : Shielded c f s) :
    Shielded c f (s.updStat nsid (fun st =>
      { st with dirties := dirtiesInsert st.dirties dep call })) := by
  by_cases hsl : nsid < s.heap.length
  · have e1 : (s.updStat nsid (fun st =>
        { st with dirties := dirtiesInsert st.dirties dep call })).getStat nsid =
        { s.getStat nsid with
          dirties := dirtiesInsert (s.getStat nsid).dirties dep call } :=
      getStat_updStat_self s nsid _ hsl
    have e2 : ∀ j, j ≠ nsid → (s.updStat nsid (fun st =>
        { st with dirties := dirtiesInsert st.dirties dep call })).getStat j =
        s.getStat j :=
      fun j hj => getStat_updStat_ne s nsid j _ (fun h => hj h.symm)
    have efn : ∀ j, ((s.updStat nsid (fun st =>
        { st with dirties := dirtiesInsert st.dirties dep call })).getStat j).fn =
        (s.getStat j).fn := by
      intro j
      by_cases hj : j = nsid
      · rw [hj, e1]
      · rw [e2 j hj]
    constructor
    · intro i hi hif
      rw [updStat_length] at hi
      rw [efn] at hif
      have hx := hs.1 i hi hif
      by_cases hieq : i = nsid
      · rw [hieq, e1]
        rw [← hieq]
        exact hx
      · rw [e2 i hieq]
        exact hx
    · intro j hj q hq
      rw [updStat_length] at hj
      by_cases hjeq : j = nsid
      · rw [hjeq, e1] at hq
        have hq' : q ∈ dirtiesInsert (s.getStat nsid).dirties dep call := hq
        rw [dirtiesInsert] at hq'
        rcases List.mem_cons.1 hq' with h2 | h2
        · rw [h2]
          rw [updStat_length, efn]
          exact hdep
        · have h3 : q ∈ (s.getStat nsid).dirties := List.mem_of_mem_filter h2
          have hx := hs.2 nsid hsl q h3
          rw [updStat_length, efn]
          exact hx
      · rw [e2 j hjeq] at hq
        have hx := hs.2 j hj q hq
        rw [updStat_length, efn]
        exact hx
  · have hheq : (s.updStat nsid (fun st =>
        { st with dirties := dirtiesInsert st.dirties dep call })).heap = s.heap := by
      simp only [LintState.updStat]
      exact List.set_eq_of_length_le (Nat.le_of_not_lt hsl)
    exact shielded_of_heap_eq hheq hs


/-- Packaged facts about `markDirty`'s double update (adopt `why`, set
Dirty) at an in-range stat. -/
theorem markcore2_facts (s : LintState) (sid : Nat) (why : List DirtyReason)
    (hw : Wf s) (hwhy : why ≠ []) (hsl : sid < s.heap.length) :
    Wf ((s.updStat sid (fun t => { t with why := why })).updStat sid
      (fun t => { t with state := FState.dirty })) ∧
    (∀ j, (((s.updStat sid (fun t => { t with why := why })).updStat sid
      (fun t => { t with state := FState.dirty })).getStat j).fn =
      (s.getStat j).fn) ∧
    ((s.updStat sid (fun t => { t with why := why })).updStat sid
      (fun t => { t with state := FState.dirty })).heap.length =
      s.heap.length ∧
    (∀ j, NotClean s j → NotClean ((s.updStat sid
      (fun t => { t with why := why })).updStat sid
      (fun t => { t with state := FState.dirty })) j) := by
  have e1 : ((s.updStat sid (fun t => { t with why := why })).updStat sid
      (fun t => { t with state := FState.dirty })).getStat sid =
      { s.getStat sid with why := why, state := FState.dirty } := by
    rw [getStat_updStat_self _ _ _ (by rw [updStat_length]; exact hsl),
      getStat_updStat_self _ _ _ hsl]
  have e2 : ∀ j, j ≠ sid →
      ((s.updStat sid (fun t => { t with why := why })).updStat sid
        (fun t => { t with state := FState.dirty })).getStat j =
      s.getStat j := by
    intro j hj
    rw [getStat_updStat_ne _ _ _ _ (fun h => hj h.symm),
      getStat_updStat_ne _ _ _ _ (fun h => hj h.symm)]
  have hlen2 : ((s.updStat sid (fun t => { t with why := why })).updStat sid
      (fun t => { t with state := FState.dirty })).heap.length =
      s.heap.length := by
    rw [updStat_length, updStat_length]
  refine ⟨?_, ?_, hlen2, ?_⟩
  · constructor
    · intro i hi hdi
      rw [hlen2] at hi
      by_cases hieq : i = sid
      · rw [hieq]
        rw [e1]
        exact hwhy
      · rw [e2 i hieq] at hdi ⊢
        exact hw.1 i hi hdi
    · intro j hj q hq
      rw [hlen2] at hj
      by_cases hjeq : j = sid
      · rw [hjeq] at hq hj
        rw [e1] at hq
        have hq' : q ∈ (s.getStat sid).dirties := hq
        have hx := hw.2 sid hj q hq'
        by_cases hq1 : q.1 = sid
        · rw [hq1, e1]
          intro hcl
          exact FState.noConfusion hcl
        · rw [e2 q.1 hq1]
          exact hx
      · rw [e2 j hjeq] at hq
        have hx := hw.2 j hj q hq
        by_cases hq1 : q.1 = sid
        · rw [hq1, e1]
          intro hcl
          exact FState.noConfusion hcl
        · rw [e2 q.1 hq1]
          exact hx
  · intro j
    by_cases hjeq : j = sid
    · rw [hjeq, e1]
    · rw [e2 j hjeq]
  · intro j hj
    simp only [NotClean]
    by_cases hjeq : j = sid
    · rw [hjeq, e1]
      intro hcl
      exact FState.noConfusion hcl
    · rw [e2 j hjeq]
      exact hj

/-- Packaged facts about `markDirty`'s single update (set Dirty, `why`
unchanged) at an in-range stat with a non-empty stored `why`. -/
theorem markcore1_facts (s : LintState) (sid : Nat)
    (hw : Wf s) (hwne : (s.getStat sid).why ≠ []) (hsl : sid < s.heap.length) :
    Wf (s.updStat sid (fun t => { t with state := FState.dirty })) ∧
    (∀ j, ((s.updStat sid (fun t =>
      { t with state := FState.dirty })).getStat j).fn = (s.getStat j).fn) ∧
    (s.updStat sid (fun t =>
      { t with state := FState.dirty })).heap.length = s.heap.length ∧
    (∀ j, NotClean s j → NotClean (s.updStat sid (fun t =>
      { t with state := FState.dirty })) j) := by
  have e1 : (s.updStat sid (fun t => { t with state := FState.dirty })).getStat
      sid = { s.getStat sid with state := FState.dirty } := by
    rw [getStat_updStat_self _ _ _ hsl]
  have e2 : ∀ j, j ≠ sid →
      (s.updStat sid (fun t => { t with state := FState.dirty })).getStat j =
      s.getStat j := by
    intro j hj
    rw [getStat_updStat_ne _ _ _ _ (fun h => hj h.symm)]
  refine ⟨?_, ?_, by rw [updStat_length], ?_⟩
  · constructor
    · intro i hi hdi
      rw [updStat_length] at hi
      by_cases hieq : i = sid
      · rw [hieq, e1]
        exact hwne
      · rw [e2 i hieq] at hdi ⊢
        exact hw.1 i hi hdi
    · intro j hj q hq
      rw [updStat_length] at hj
      by_cases hjeq : j = sid
      · rw [hjeq] at hq hj
        rw [e1] at hq
        have hq' : q ∈ (s.getStat sid).dirties := hq
        have hx := hw.2 sid hj q hq'
        by_cases hq1 : q.1 = sid
        · rw [hq1, e1]
          intro hcl
          exact FState.noConfusion hcl
        · rw [e2 q.1 hq1]
          exact hx
      · rw [e2 j hjeq] at hq
        have hx := hw.2 j hj q hq
        by_cases hq1 : q.1 = sid
        · rw [hq1, e1]
          intro hcl
          exact FState.noConfusion hcl
        · rw [e2 q.1 hq1]
          exact hx
  · intro j
    by_cases hjeq : j = sid
    · rw [hjeq, e1]
    · rw [e2 j hjeq]
  · intro j hj
    simp only [NotClean]
    by_cases hjeq : j = sid
    · rw [hjeq, e1]
      intro hcl
      exact FState.noConfusion hcl
    · rw [e2 j hjeq]
      exact hj



set_option maxHeartbeats 3200000 in
/-- The shield induction: when every root value of `f` (per the program) is
`Safe`, every work-phase operation preserves `Shielded c f` — in
particular, no operation ever marks a stat of `f` Dirty. -/
theorem shieldPhase (c : Ctx) (f : Nat)
    (Hsafe : ∀ r ∈ (c.prog.funcs.getD f default).returns,
      ∀ idx ∈ targetIndexesOf c f, Safe c (r.getD idx 0)) :
    ∀ fuel : Nat,
    (∀ (sid : Nat) (s : LintState), Wf s → Shielded c f s →
      Shielded c f (analyzeF c fuel sid s)) ∧
    (∀ (sid : Nat) (rets : List (List Nat)) (tIdx seen : List Nat)
      (s : LintState), Wf s → Shielded c f s → NotClean s sid →
      sid < s.heap.length →
      ((s.getStat sid).fn = f →
        ∀ r ∈ rets, ∀ idx ∈ tIdx, Safe c (r.getD idx 0)) →
      Shielded c f (analyzeRets c fuel sid rets tIdx seen s)) ∧
    (∀ (sid : Nat) (rvals idxs seen : List Nat) (s : LintState),
      Wf s → Shielded c f s → NotClean s sid → sid < s.heap.length →
      ((s.getStat sid).fn = f → ∀ idx ∈ idxs, Safe c (rvals.getD idx 0)) →
      Shielded c f (analyzeIdxs c fuel sid rvals idxs seen s).1) ∧
    (∀ (sid v : Nat) (seen : List Nat) (s : LintState),
      Wf s → Shielded c f s → NotClean s sid → sid < s.heap.length →
      ((s.getStat sid).fn = f → Safe c v) →
      Shielded c f (decideF c fuel sid v seen s).1) ∧
    (∀ (sid : Nat) (es seen : List Nat) (s : LintState),
      Wf s → Shielded c f s → NotClean s sid → sid < s.heap.length →
      ((s.getStat sid).fn = f → ∀ e ∈ es, Safe c e) →
      Shielded c f (decidePhis c fuel sid es seen s).1) ∧
    (∀ (sid : Nat) (why : List DirtyReason) (s : LintState),
      Wf s → Shielded c f s → NotClean s sid → why ≠ [] →
      ¬(sid < s.heap.length ∧ (s.getStat sid).fn = f) →
      Shielded c f (markDirtyF c fuel sid why s)) ∧
    (∀ (entries : List (Nat × Nat)) (why : List DirtyReason) (s : LintState),
      Wf s → Shielded c f s →
      (∀ q ∈ entries, NotClean s q.1 ∧ q.1 < s.heap.length ∧
        (s.getStat q.1).fn ≠ f) →
      Shielded c f (markProp c fuel entries why s)) := by
  intro fuel
  induction fuel with
  | zero =>
    refine ⟨?_, ?_, ?_, ?_, ?_, ?_, ?_⟩
    · intro sid s _ hs
      simp only [analyzeF]
      exact hs
    · intro sid rets tIdx seen s _ hs _ _ _
      simp only [analyzeRets]
      exact hs
    · intro sid rvals idxs seen s _ hs _ _ _
      simp only [analyzeIdxs]
      exact hs
    · intro sid v seen s _ hs _ _ _
      simp only [decideF]
      exact hs
    · intro sid es seen s _ hs _ _ _
      simp only [decidePhis]
      exact hs
    · intro sid why s _ hs _ _ _
      simp only [markDirtyF]
      exact hs
    · intro entries why s _ hs _
      simp only [markProp]
      exact hs
  | succ fuel ih =>
    obtain ⟨shA, shR, shI, shD, shP, shM, shQ⟩ := ih
    obtain ⟨wA, wR, wI, wD, wP, wM, wQ⟩ := workPhase fuel
    have hmarkProp : ∀ (entries : List (Nat × Nat)) (why : List DirtyReason)
        (s : LintState), Wf s → Shielded c f s →
        (∀ q ∈ entries, NotClean s q.1 ∧ q.1 < s.heap.length ∧
          (s.getStat q.1).fn ≠ f) →
        Shielded c f (markProp c (fuel+1) entries why s) := by
      intro entries why s hw hs hents
      match entries with
      | [] =>
        simp only [markProp]
        exact hs
      | q :: rest =>
        simp only [markProp]
        have hq := hents q (by simp)
        have h1sh := shM q.1 ({ reason := "calls", value := q.2 } :: why) s hw hs
          hq.1 (by simp) (fun hc => hq.2.2 hc.2)
        have h1w := wM c q.1 ({ reason := "calls", value := q.2 } :: why) s hw
          hq.1 (by simp)
        refine shQ rest why _ h1w.1 h1sh ?_
        intro q' hq'
        have hx := hents q' (by simp [hq'])
        exact ⟨notClean_mono h1w.2 hx.1, lt_len_of_mono h1w.2 hx.2.1,
          by rw [fn_stable_of_mono h1w.2 hx.2.1]; exact hx.2.2⟩
    have hmarkDirty : ∀ (sid : Nat) (why : List DirtyReason) (s : LintState),
        Wf s → Shielded c f s → NotClean s sid → why ≠ [] →
        ¬(sid < s.heap.length ∧ (s.getStat sid).fn = f) →
        Shielded c f (markDirtyF c (fuel+1) sid why s) := by
      intro sid why s hw hs hnc hwhy havoid
      simp only [markDirtyF]
      by_cases hp : s.panicMsg.isSome
      · simp only [hp, if_true]
        exact hs
      · simp only [hp, Bool.false_eq_true, if_false]
        by_cases hch :
            ((s.getStat sid).why.isEmpty ||
              decide (why.length < (s.getStat sid).why.length)) = true
        · simp only [hch, if_true, Bool.true_eq_false, and_false, if_false]
          by_cases hsl : sid < s.heap.length
          · have hfne : (s.getStat sid).fn ≠ f := fun hc => havoid ⟨hsl, hc⟩
            have hfacts := markcore2_facts s sid why hw hwhy hsl
            have hs1 : Shielded c f (s.updStat sid
                (fun t => { t with why := why })) :=
              shielded_updStat_keep c f s sid _ (fun _ => rfl) (fun _ => rfl)
                (fun _ => rfl) (fun _ => rfl) (fun _ h => h) hs
            have hs2 : Shielded c f ((s.updStat sid
                (fun t => { t with why := why })).updStat sid
                (fun t => { t with state := FState.dirty })) := by
              apply shielded_updStat_nonf c f _ sid
                (fun t => { t with state := FState.dirty }) (fun _ => rfl)
                (fun _ => rfl) (fun _ => rfl) (fun _ => rfl) ?_ hs1
              rw [updStat_length]
              intro hcon
              apply hfne
              have := getStat_updStat_self s sid
                (fun t => { t with why := why }) hsl
              rw [this] at hcon
              exact hcon.2
            refine shQ (s.getStat sid).dirties why _ hfacts.1 hs2 ?_
            intro q hq
            have h1 : NotClean s q.1 := hw.2 sid hsl q hq
            have h2 := hs.2 sid hsl q hq
            refine ⟨hfacts.2.2.2 q.1 h1, ?_, ?_⟩
            · rw [hfacts.2.2.1]
              exact h2.1
            · rw [hfacts.2.1 q.1]
              exact h2.2
          · have hge : s.heap.length ≤ sid := Nat.le_of_not_lt hsl
            have hdef : s.getStat sid = default := getStat_oob s sid hge
            have hs2heap : ((s.updStat sid (fun t => { t with why := why })).updStat
                sid (fun t => { t with state := FState.dirty })).heap = s.heap := by
              simp only [LintState.updStat, List.set_set]
              exact List.set_eq_of_length_le hge
            rw [hdef, default_dirties_nil, markProp_nil]
            exact shielded_of_heap_eq hs2heap hs
        · have hchf : ((s.getStat sid).why.isEmpty ||
              decide (why.length < (s.getStat sid).why.length)) = false := by
            revert hch
            cases ((s.getStat sid).why.isEmpty ||
              decide (why.length < (s.getStat sid).why.length)) <;> simp
          simp only [hchf, Bool.false_eq_true, if_false, and_true]
          by_cases hd : (s.getStat sid).state = FState.dirty
          · rw [if_pos hd]
            exact hs
          · rw [if_neg hd]
            have hwne : (s.getStat sid).why ≠ [] := by
              intro h
              rw [h] at hchf
              simp at hchf
            by_cases hsl : sid < s.heap.length
            · have hfne : (s.getStat sid).fn ≠ f := fun hc => havoid ⟨hsl, hc⟩
              have hfacts := markcore1_facts s sid hw hwne hsl
              have hs2 : Shielded c f (s.updStat sid
                  (fun t => { t with state := FState.dirty })) :=
                shielded_updStat_nonf c f s sid _ (fun _ => rfl) (fun _ => rfl)
                  (fun _ => rfl) (fun _ => rfl) (fun hcon => hfne hcon.2) hs
              refine shQ (s.getStat sid).dirties why _ hfacts.1 hs2 ?_
              intro q hq
              have h1 : NotClean s q.1 := hw.2 sid hsl q hq
              have h2 := hs.2 sid hsl q hq
              refine ⟨hfacts.2.2.2 q.1 h1, ?_, ?_⟩
              · rw [hfacts.2.2.1]
                exact h2.1
              · rw [hfacts.2.1 q.1]
                exact h2.2
            · have hge : s.heap.length ≤ sid := Nat.le_of_not_lt hsl
              have hdef : s.getStat sid = default := getStat_oob s sid hge
              have hs2heap : (s.updStat sid
                  (fun t => { t with state := FState.dirty })).heap = s.heap := by
                simp only [LintState.updStat]
                exact List.set_eq_of_length_le hge
              rw [hdef, default_dirties_nil, markProp_nil]
              exact shielded_of_heap_eq hs2heap hs
    have hdecide : ∀ (sid v : Nat) (seen : List Nat) (s : LintState),
        Wf s → Shielded c f s → NotClean s sid → sid < s.heap.length →
        ((s.getStat sid).fn = f → Safe c v) →
        Shielded c f (decideF c (fuel+1) sid v seen s).1 := by
      intro sid v seen s hw hs hnc hv hsafe
      simp only [decideF]
      by_cases hp : s.panicMsg.isSome
      · simp only [hp, if_true]
        exact hs
      · simp only [hp, Bool.false_eq_true, if_false]
        by_cases hvs : v ∈ seen
        · rw [if_pos hvs]
          exact hs
        · rw [if_neg hvs]
          cases hsh : c.shape v with
          | call callee ty =>
            cases callee with
            | some g =>
              dsimp only
              have hfne : (s.getStat sid).fn ≠ f :=
                fun hf => safe_no_call hsh (hsafe hf)
              have hw1 := statF_wf_mono c g s hw
              have hsh1 := statF_shield c f Hsafe g s hs
              have hw2 := wA c (statF c g s).2 (statF c g s).1 hw1.1
              have hsh2 := shA (statF c g s).2 (statF c g s).1 hw1.1 hsh1
              have hm12 : Mono s (analyzeF c fuel (statF c g s).2 (statF c g s).1) :=
                mono_trans hw1.2 hw2.2
              have hfnS : ((analyzeF c fuel (statF c g s).2
                  (statF c g s).1).getStat sid).fn = (s.getStat sid).fn :=
                fn_stable_of_mono hm12 hv
              have hvlen2 : sid < (analyzeF c fuel (statF c g s).2
                  (statF c g s).1).heap.length := lt_len_of_mono hm12 hv
              cases hstate : ((analyzeF c fuel (statF c g s).2
                  (statF c g s).1).getStat (statF c g s).2).state with
              | clean =>
                exact hsh2
              | dirty =>
                exact shM sid _ _ hw2.1 hsh2 (notClean_mono hm12 hnc) (by simp)
                  (fun hcon => hfne (by rw [← hfnS]; exact hcon.2))
              | unknown =>
                exact shielded_register c f _ (statF c g s).2 sid v
                  ⟨hvlen2, by rw [hfnS]; exact hfne⟩ hsh2
              | analyzing =>
                exact shielded_register c f _ (statF c g s).2 sid v
                  ⟨hvlen2, by rw [hfnS]; exact hfne⟩ hsh2
            | none =>
              dsimp only
              have hfne : (s.getStat sid).fn ≠ f :=
                fun hf => safe_no_call hsh (hsafe hf)
              exact shM sid _ s hw hs hnc (by simp) (fun hcon => hfne hcon.2)
          | const isNil ty =>
            dsimp only
            cases isNil with
            | true =>
              rw [if_pos rfl]
              exact hs
            | false =>
              rw [if_neg (by simp)]
              cases hall : isAllowed c.allowed ty with
              | none =>
                dsimp only
                exact shielded_of_heap_eq rfl hs
              | some b =>
                cases b with
                | true =>
                  dsimp only
                  exact hs
                | false =>
                  dsimp only
                  have hfne : (s.getStat sid).fn ≠ f := by
                    intro hf
                    rcases safe_const hsh (hsafe hf) with h | h
                    · exact Bool.noConfusion h
                    · rw [hall] at h
                      have := Option.some.inj h
                      exact Bool.noConfusion this
                  exact shM sid _ s hw hs hnc (by simp)
                    (fun hcon => hfne hcon.2)
          | extract tv ty =>
            dsimp only
            have hfne : (s.getStat sid).fn ≠ f :=
              fun hf => safe_no_extract hsh (hsafe hf)
            exact shD sid tv (v :: seen) s hw hs hnc hv
              (fun hf => absurd hf hfne)
          | makeInterface x ty =>
            dsimp only
            exact shD sid x (v :: seen) s hw hs hnc hv
              (fun hf => safe_mkIntf hsh (hsafe hf))
          | phi edges ty =>
            dsimp only
            exact shP sid edges (v :: seen) s hw hs hnc hv
              (fun hf => safe_phi hsh (hsafe hf))
          | typeAssert asserted ty =>
            dsimp only
            cases hall : isAllowed c.allowed asserted with
            | none =>
              dsimp only
              exact shielded_of_heap_eq rfl hs
            | some b =>
              cases b with
              | true =>
                dsimp only
                exact hs
              | false =>
                dsimp only
                have hfne : (s.getStat sid).fn ≠ f := by
                  intro hf
                  have h := safe_assert hsh (hsafe hf)
                  rw [hall] at h
                  have := Option.some.inj h
                  exact Bool.noConfusion this
                exact shM sid _ s hw hs hnc (by simp)
                  (fun hcon => hfne hcon.2)
          | unop op x ty =>
            dsimp only
            by_cases hop : op = UnTok.mul
            · rw [if_pos hop]
              exact shD sid x (v :: seen) s hw hs hnc hv
                (fun hf => (safe_unop hsh (hsafe hf)).2)
            · rw [if_neg hop]
              exact hs
          | basicVal ty =>
            dsimp only
            cases hall : isAllowed c.allowed ty with
            | none =>
              dsimp only
              exact shielded_of_heap_eq rfl hs
            | some b =>
              cases b with
              | true =>
                dsimp only
                exact hs
              | false =>
                dsimp only
                have hfne : (s.getStat sid).fn ≠ f := by
                  intro hf
                  have h := safe_basic hsh (hsafe hf)
                  rw [hall] at h
                  have := Option.some.inj h
                  exact Bool.noConfusion this
                exact shM sid _ s hw hs hnc (by simp)
                  (fun hcon => hfne hcon.2)
    have hdecidePhis : ∀ (sid : Nat) (es seen : List Nat) (s : LintState),
        Wf s → Shielded c f s → NotClean s sid → sid < s.heap.length →
        ((s.getStat sid).fn = f → ∀ e ∈ es, Safe c e) →
        Shielded c f (decidePhis c (fuel+1) sid es seen s).1 := by
      intro sid es seen s hw hs hnc hv hes
      match es with
      | [] =>
        simp only [decidePhis]
        exact hs
      | e :: rest =>
        simp only [decidePhis]
        have h1w := wD c sid e seen s hw hnc
        have h1sh := shD sid e seen s hw hs hnc hv
          (fun hf => hes hf e (by simp))
        refine shP sid rest (decideF c fuel sid e seen s).2
          (decideF c fuel sid e seen s).1 h1w.1 h1sh
          (notClean_mono h1w.2 hnc) (lt_len_of_mono h1w.2 hv) ?_
        intro hf e' he'
        rw [fn_stable_of_mono h1w.2 hv] at hf
        exact hes hf e' (by simp [he'])
    have hanalyzeIdxs : ∀ (sid : Nat) (rvals idxs seen : List Nat)
        (s : LintState), Wf s → Shielded c f s → NotClean s sid →
        sid < s.heap.length →
        ((s.getStat sid).fn = f → ∀ idx ∈ idxs, Safe c (rvals.getD idx 0)) →
        Shielded c f (analyzeIdxs c (fuel+1) sid rvals idxs seen s).1 := by
      intro sid rvals idxs seen s hw hs hnc hv hvals
      match idxs with
      | [] =>
        simp only [analyzeIdxs]
        exact hs
      | idx :: rest =>
        simp only [analyzeIdxs]
        have h1w := wD c sid (rvals.getD idx 0) seen s hw hnc
        have h1sh := shD sid (rvals.getD idx 0) seen s hw hs hnc hv
          (fun hf => hvals hf idx (by simp))
        by_cases hcond : ((decideF c fuel sid (rvals.getD idx 0) seen s).1.getStat
            sid).state ≠ FState.analyzing
        · rw [if_pos hcond]
          exact h1sh
        · rw [if_neg hcond]
          refine shI sid rvals rest
            (decideF c fuel sid (rvals.getD idx 0) seen s).2
            (decideF c fuel sid (rvals.getD idx 0) seen s).1 h1w.1 h1sh
            (notClean_mono h1w.2 hnc) (lt_len_of_mono h1w.2 hv) ?_
          intro hf idx' hidx'
          rw [fn_stable_of_mono h1w.2 hv] at hf
          exact hvals hf idx' (by simp [hidx'])
    have hanalyzeRets : ∀ (sid : Nat) (rets : List (List Nat))
        (tIdx seen : List Nat) (s : LintState), Wf s → Shielded c f s →
        NotClean s sid → sid < s.heap.length →
        ((s.getStat sid).fn = f →
          ∀ r ∈ rets, ∀ idx ∈ tIdx, Safe c (r.getD idx 0)) →
        Shielded c f (analyzeRets c (fuel+1) sid rets tIdx seen s) := by
      intro sid rets tIdx seen s hw hs hnc hv hroots
      match rets with
      | [] =>
        simp only [analyzeRets]
        exact hs
      | r :: rest =>
        simp only [analyzeRets]
        have h1w := wI c sid r tIdx seen s hw hnc
        have h1sh := shI sid r tIdx seen s hw hs hnc hv
          (fun hf => hroots hf r (by simp))
        by_cases hcond : ((analyzeIdxs c fuel sid r tIdx seen s).1.getStat
            sid).state ≠ FState.analyzing
        · rw [if_pos hcond]
          exact h1sh
        · rw [if_neg hcond]
          refine shR sid rest tIdx (analyzeIdxs c fuel sid r tIdx seen s).2
            (analyzeIdxs c fuel sid r tIdx seen s).1 h1w.1 h1sh
            (notClean_mono h1w.2 hnc) (lt_len_of_mono h1w.2 hv) ?_
          intro hf r' hr' idx' hidx'
          rw [fn_stable_of_mono h1w.2 hv] at hf
          exact hroots hf r' (by simp [hr']) idx' hidx'
    have hanalyzeF : ∀ (sid : Nat) (s : LintState), Wf s → Shielded c f s →
        Shielded c f (analyzeF c (fuel+1) sid s) := by
      intro sid s hw hs
      simp only [analyzeF]
      by_cases hp : s.panicMsg.isSome
      · simp only [hp, if_true]
        exact hs
      · simp only [hp, Bool.false_eq_true, if_false]
        by_cases hst : (s.getStat sid).state ≠ FState.unknown
        · rw [if_pos hst]
          exact hs
        · rw [if_neg hst]
          have hstu : (s.getStat sid).state = FState.unknown := not_not.1 hst
          have h1 := wf_mono_setAnalyzing s sid hw hstu
          have hs1 : Shielded c f (s.updStat sid
              (fun t => { t with state := FState.analyzing })) :=
            shielded_updStat_keep c f s sid _ (fun _ => rfl) (fun _ => rfl)
              (fun _ => rfl) (fun _ => rfl)
              (fun _ h => FState.noConfusion h) hs
          by_cases hsl : sid < s.heap.length
          · refine shR sid (s.getStat sid).returns (s.getStat sid).targetIndexes
              [] _ h1.1 hs1 h1.2.2 (by rw [updStat_length]; exact hsl) ?_
            intro hf
            have hfs : ((s.updStat sid (fun t =>
                { t with state := FState.analyzing })).getStat sid).fn =
                (s.getStat sid).fn := by
              rw [getStat_updStat_self s sid _ hsl]
            rw [hfs] at hf
            exact (hs.1 sid hsl hf).2
          · have hdef : s.getStat sid = default :=
              getStat_oob s sid (Nat.le_of_not_lt hsl)
            rw [hdef]
            rw [show (default : funcStat).returns = ([] : List (List Nat)) from rfl]
            rw [analyzeRets_nil]
            exact hs1
    exact ⟨hanalyzeF, hanalyzeRets, hanalyzeIdxs, hdecide, hdecidePhis,
      hmarkDirty, hmarkProp⟩


end retlint

namespace rt

/-- The alias-expansion edge relation: `t` expands to `t'` when the alias
table binds `t`'s contract name to a list containing `t'`. -/
def Edge (al : AliasTable) (t t' : target) : Prop :=
  ∃ l, aliasLookup al t.contract = some l ∧ t' ∈ l

/-- `t` reaches an alias cycle: some target `cyc` is reachable from `t`
(possibly `t` itself) and reachable from itself in at least one step. -/
def CycleReach (al : AliasTable) (t : target) : Prop :=
  ∃ cyc, Relation.ReflTransGen (Edge al) t cyc ∧
    Relation.TransGen (Edge al) cyc cyc

end rt

namespace retlint

theorem shield_runWork (c : Ctx) (f : Nat)
    (Hsafe : ∀ r ∈ (c.prog.funcs.getD f default).returns,
      ∀ idx ∈ targetIndexesOf c f, Safe c (r.getD idx 0)) (fuel : Nat) :
    ∀ (l : List Nat) (s : LintState), Wf s → Shielded c f s →
    Shielded c f (runWork c fuel l s) := by
  intro l
  induction l with
  | nil =>
    intro s _ hs
    exact hs
  | cons sid rest ih =>
    intro s hw hs
    simp only [runWork]
    have h1w := (workPhase fuel).1 c sid s hw
    have h1s := (shieldPhase c f Hsafe fuel).1 sid s hw hs
    exact ih _ h1w.1 h1s

theorem shield_workLoop (c : Ctx) (f : Nat)
    (Hsafe : ∀ r ∈ (c.prog.funcs.getD f default).returns,
      ∀ idx ∈ targetIndexesOf c f, Safe c (r.getD idx 0)) :
    ∀ (outer fuel : Nat) (s : LintState), Wf s → Shielded c f s →
    Shielded c f (workLoop c outer fuel s) := by
  intro outer
  induction outer with
  | zero =>
    intro fuel s _ hs
    exact hs
  | succ outer ih =>
    intro fuel s hw hs
    simp only [workLoop]
    by_cases he : s.work.isEmpty
    · simp only [he, if_true]
      exact hs
    · simp only [he, Bool.false_eq_true, if_false]
      have hwf' : Wf ({ s with work := ([] : List Nat) } : LintState) :=
        wf_of_heap_eq rfl hw
      have hs' : Shielded c f ({ s with work := ([] : List Nat) } : LintState) :=
        shielded_of_heap_eq rfl hs
      have h1w := wf_mono_runWork c fuel s.work _ hwf'
      have h1s := shield_runWork c f Hsafe fuel s.work _ hwf' hs'
      exact ih fuel _ h1w.1 h1s

theorem shield_bootstrap (c : Ctx) (f : Nat)
    (Hsafe : ∀ r ∈ (c.prog.funcs.getD f default).returns,
      ∀ idx ∈ targetIndexesOf c f, Safe c (r.getD idx 0)) :
    ∀ (roots : List Nat) (s : LintState), Wf s → Shielded c f s →
    Shielded c f (bootstrap c roots s) := by
  intro roots
  induction roots with
  | nil =>
    intro s _ hs
    exact hs
  | cons fn rest ih =>
    intro s hw hs
    simp only [bootstrap]
    have h1w := statF_wf_mono c fn s hw
    have h1s := statF_shield c f Hsafe fn s hs
    exact ih _ h1w.1 h1s

theorem shield_cleanStep (c : Ctx) (f : Nat) (s : LintState) (sid : Nat)
    (hs : Shielded c f s) : Shielded c f (cleanStep s sid) := by
  unfold cleanStep
  split
  · exact shielded_updStat_keep c f s sid _ (fun _ => rfl) (fun _ => rfl)
      (fun _ => rfl) (fun _ => rfl) (fun _ h => FState.noConfusion h) hs
  · exact hs

theorem shield_sweepClean (c : Ctx) (f : Nat) : ∀ (l : List Nat) (s : LintState),
    Shielded c f s → Shielded c f (sweepClean l s) := by
  intro l
  induction l with
  | nil =>
    intro s hs
    exact hs
  | cons sid rest ih =>
    intro s hs
    simp only [sweepClean]
    exact ih _ (shield_cleanStep c f s sid hs)

theorem shield_init (c : Ctx) (f : Nat) : Shielded c f initState := by
  constructor
  · intro sid hlen hfn
    simp only [initState, List.length_singleton] at hlen
    interval_cases sid
    constructor
    · intro hdd
      simp [initState, LintState.getStat, List.getD, cleanStat] at hdd
    · intro r hr
      simp [initState, LintState.getStat, List.getD, cleanStat] at hr
  · intro j hj q hq
    simp only [initState, List.length_singleton] at hj
    interval_cases j
    simp [initState, LintState.getStat, List.getD, cleanStat] at hq

/-- C2 (amended).  The claim as stated is refuted by
`claim_C2_counterexample`: `decide` never consults a call's own result
type, so a function returning only allowed-typed values can still be
Dirty.  The sound version quantifies over `Safe` root values — nil
constants, allowed constants, type assertions and default-shape values,
closed under interface wraps, phis and dereferences: a function whose
root values are all `Safe` is never marked Dirty by `execute`, and it
never appears in the dirty report list. -/
theorem claim_C2 (l : RetLint) (env : ResolveEnv) (p : Program)
    (fo fi : Nat) (s : LintState) (dl : List (Nat × List DirtyReason))
    (f : Nat) (c : Ctx)
    (hres : resolve env l.TargetName = .ok c.target)
    (hresl : resolveList env l.AllowedNames = .ok c.allowed)
    (hcp : c.prog = p)
    (Hsafe : ∀ r ∈ (c.prog.funcs.getD f default).returns,
      ∀ idx ∈ targetIndexesOf c f, Safe c (r.getD idx 0))
    (hexec : execute l env p fo fi = .ok s dl) :
    (∀ sid, sid < s.heap.length → (s.getStat sid).fn = f →
      (s.getStat sid).state ≠ .dirty) ∧
    (∀ why, (f, why) ∉ dl) := by
  obtain ⟨c', x, hres', hresl', hcp', hx, hpn, hse, hde⟩ :=
    execute_ok_shape l env p fo fi s dl hexec
  have hcc : c' = c := by
    rw [hres'] at hres
    rw [hresl'] at hresl
    have h1 : c'.target = c.target := by
      injection hres
    have h2 : c'.allowed = c.allowed := by
      injection hresl
    have h3 : c'.prog = c.prog := by
      rw [hcp', hcp]
    obtain ⟨pr, tg, al⟩ := c'
    obtain ⟨pr2, tg2, al2⟩ := c
    simp only at h1 h2 h3
    rw [h1, h2, h3]
  rw [hcc] at hx hde
  have hwf0 : Wf initState := wf_init
  have hsh0 : Shielded c f initState := shield_init c f
  have hwfB := (wf_mono_bootstrap c p.roots initState hwf0).1
  have hshB : Shielded c f (bootstrap c p.roots initState) :=
    shield_bootstrap c f Hsafe p.roots initState hwf0 hsh0
  have hshX : Shielded c f x := by
    rw [hx]
    exact shield_workLoop c f Hsafe fo fi _ hwfB hshB
  have hshS : Shielded c f s := by
    rw [hse]
    unfold cleanupPass
    exact shield_sweepClean c f _ x hshX
  constructor
  · intro sid hlen hfn
    exact (hshS.1 sid hlen hfn).1
  · intro why hmem
    rw [hde, ← hse] at hmem
    unfold collectDirty at hmem
    obtain ⟨sid, hact, hsome⟩ := List.mem_filterMap.1 hmem
    by_cases hcond : (s.getStat sid).state = .dirty ∧
        isExported (c.prog.funcs.getD (s.getStat sid).fn default).name = true ∧
        (c.prog.funcs.getD (s.getStat sid).fn default).inRoot = true
    · rw [if_pos hcond] at hsome
      have hpair := Option.some.inj hsome
      have hfn : (s.getStat sid).fn = f := congrArg Prod.fst hpair
      by_cases hlen : sid < s.heap.length
      · exact (hshS.1 sid hlen hfn).1 hcond.1
      · have : s.getStat sid = default := getStat_oob s sid (Nat.le_of_not_lt hlen)
        rw [this] at hcond
        exact FState.noConfusion hcond.1
    · rw [if_neg hcond] at hsome
      exact Option.noConfusion hsome

end retlint

namespace retlint

/-! Concrete inputs used by the counterexamples and witnesses below. -/

/-- A resolve environment whose universe scope knows the named types
`error` and `Good`. -/
def env1 : ResolveEnv :=
  { universeScope := [("error", .named "error"), ("Good", .named "Good")],
    packages := [] }

/-- Configuration targeting `error` with allowed set `{Good}`. -/
def cfg1 : RetLint := { AllowedNames := ["Good"], TargetName := "error" }

/-- Two root functions: `F` returns the result of calling `G` from one
`Return` and a disallowed constant from another; `G` returns a disallowed
constant directly. -/
def P1 : Program :=
  { funcs := [{ name := "F", inRoot := true, results := [.named "error"], returns := [[0], [1]] }, { name := "G", inRoot := true, results := [.named "error"], returns := [[2]] }],
    vals := [.call (some 1) (.named "error"), .const false (.named "badT"), .const false (.named "badT")],
    roots := [0, 1] }

/-- The context `execute cfg1 env1 P1` runs under. -/
def ctx1 : Ctx := { prog := P1, target := "error", allowed := ["Good"] }

/-- Configuration targeting `error` with allowed set `{error}`. -/
def cfg2 : RetLint := { AllowedNames := ["error"], TargetName := "error" }

/-- One function returning a call without a static callee whose own type is
the allowed `error`. -/
def P2 : Program :=
  { funcs := [{ name := "F", inRoot := true, results := [.named "error"], returns := [[0]] }],
    vals := [.call none (.named "error")],
    roots := [0] }

def ctx2 : Ctx := { prog := P2, target := "error", allowed := ["error"] }

/-- One function returning a channel-receive `UnOp` (operator `<-`, not
`*`) of disallowed type. -/
def P3 : Program :=
  { funcs := [{ name := "F", inRoot := true, results := [.named "error"], returns := [[0]] }],
    vals := [.unop .arrow 1 (.named "error"), .basicVal (.basic "chan error")],
    roots := [0] }

def ctx3 : Ctx := { prog := P3, target := "error", allowed := ["Good"] }

/-- One function returning an `Extract` whose tuple operand is not a call
(as a map comma-ok lookup is), so `decide` recurses into a value of tuple
type. -/
def P10 : Program :=
  { funcs := [{ name := "F", inRoot := true, results := [.named "error"], returns := [[0]] }],
    vals := [.extract 1 (.named "error"), .basicVal (.tuple 2)],
    roots := [0] }

def ctx10 : Ctx := { prog := P10, target := "error", allowed := ["Good"] }

/-- Configuration whose target name is absent from the universe scope. -/
def cfg8 : RetLint := { AllowedNames := [], TargetName := "Missing" }

end retlint

namespace retlint

/-- C8.  The claim says every unresolvable configured type name yields a
fatal configuration error rather than a crash.  A qualified name absent
from the loaded packages indeed yields the "unable to find type" error, but
a simple name absent from the universe scope reaches the unconditional
`found = tgtObject.Type()` line with a nil `tgtObject`: `resolve` nil-panics
and `Execute` crashes instead of returning an error. -/
theorem claim_C8 :
    resolve env1 "some/pkg/Missing" =
      .err ("unable to find type " ++ quoteStr "some/pkg/Missing") ∧
    resolve env1 "Missing" = .nilDeref ∧
    execute cfg8 env1 P3 10 30 = .panicked nilDerefMsg := by
  refine ⟨rfl, rfl, ?_⟩
  rfl

/-- C10.  The claim says `isAllowed` is never reached with a tuple type
because `extract` unpacks tuples.  But `extract` only unpacks the results
of the analyzed function's `Return`s; `decide` recurses through an
`Extract` into its tuple operand, and when that operand is not a call
(e.g. a map comma-ok lookup) `isAllowed` receives the tuple type and
panics, aborting `Execute`. -/
theorem claim_C10 :
    ctx10.shape 0 = .extract 1 (.named "error") ∧
    ctx10.shape 1 = .basicVal (.tuple 2) ∧
    isAllowed ctx10.allowed (.tuple 2) = none ∧
    execute cfg1 env1 P10 10 30 = .panicked tupleMsg := by
  refine ⟨rfl, rfl, rfl, ?_⟩
  rfl

/-- C3 counterexample.  Value 0 is a `UnOp` whose operator is not `*` and
whose type is not allowed; the claim predicts it is marked dirty with a
"result of disallowed type" reason, but `decide`'s `UnOp` case silently
ignores any operator other than `*` and the function ends Clean. -/
theorem claim_C3_counterexample :
    ctx3.shape 0 = .unop .arrow 1 (.named "error") ∧
    isAllowed ctx3.allowed (ctx3.shape 0).ty = some false ∧
    finalStateOf cfg1 env1 P3 10 30 0 = some .clean := by
  refine ⟨rfl, rfl, ?_⟩
  rfl

/-- C3 (amended).  What `decide` actually does, branch by branch: a `UnOp`
whose operator is `*` recurses into the operand, and a `UnOp` with any
other operator returns with no state change at all — no dirty marking,
whatever the type.  A value of an unlisted shape (the switch default)
follows `isAllowed` on its own type: marked dirty with reason
`"result of disallowed type T"` when the unwrapped type is not allowed,
untouched when it is allowed, and for a tuple type not dirtied at all but
aborted by the `isAllowed` panic. -/
theorem claim_C3 (c : Ctx) (fuel sid v x : Nat) (op : UnTok) (ty : GoType)
    (seen : List Nat) (s : LintState)
    (hp : s.panicMsg = none) (hv : v ∉ seen) :
    (c.shape v = .unop op x ty → op = .mul →
      decideF c (fuel + 1) sid v seen s = decideF c fuel sid x (v :: seen) s) ∧
    (c.shape v = .unop op x ty → op ≠ .mul →
      decideF c (fuel + 1) sid v seen s = (s, v :: seen)) ∧
    (c.shape v = .basicVal ty → isAllowed c.allowed ty = some false →
      decideF c (fuel + 1) sid v seen s =
        (markDirtyF c fuel sid
          [{ reason := "result of disallowed type " ++ quoteType ty, value := v }] s,
         v :: seen)) ∧
    (c.shape v = .basicVal ty → isAllowed c.allowed ty = some true →
      decideF c (fuel + 1) sid v seen s = (s, v :: seen)) ∧
    (c.shape v = .basicVal ty → isAllowed c.allowed ty = none →
      decideF c (fuel + 1) sid v seen s = (s.setPanic tupleMsg, v :: seen)) := by
  refine ⟨?_, ?_, ?_, ?_, ?_⟩ <;> intro hsh hcond <;>
    simp [decideF, hp, hv, hsh, hcond]

/-- The dereference and allowed-default programs of the C3 witness. -/
def PM : Program :=
  { funcs := [{ name := "F", inRoot := true, results := [.named "error"], returns := [[0]] }],
    vals := [.unop .mul 1 (.named "error"), .const true (.named "error")],
    roots := [0] }

def ctxM : Ctx := { prog := PM, target := "error", allowed := ["Good"] }

def PG : Program :=
  { funcs := [{ name := "F", inRoot := true, results := [.named "error"], returns := [[0]] }],
    vals := [.basicVal (.named "Good")],
    roots := [0] }

def ctxG : Ctx := { prog := PG, target := "error", allowed := ["Good"] }

/-- Witness for C3, one concrete input per branch: the `*` recursion, the
ignored channel receive, the dirtied disallowed default value, the
untouched allowed default value, and the tuple panic. -/
theorem claim_C3_witness :
    decideF ctxM 4 0 0 [] initState = decideF ctxM 3 0 1 [0] initState ∧
    decideF ctx3 4 0 0 [] initState = (initState, [0]) ∧
    decideF ctx3 4 0 1 [] initState =
      (markDirtyF ctx3 3 0
        [{ reason := "result of disallowed type " ++ quoteType (.basic "chan error"),
           value := 1 }] initState,
       [1]) ∧
    decideF ctxG 4 0 0 [] initState = (initState, [0]) ∧
    decideF ctx10 4 0 1 [] initState = (initState.setPanic tupleMsg, [1]) := by
  refine ⟨?_, ?_, ?_, ?_, ?_⟩
  · exact (claim_C3 ctxM 3 0 0 1 .mul (.named "error") [] initState rfl
      (by decide)).1 rfl rfl
  · exact (claim_C3 ctx3 3 0 0 1 .arrow (.named "error") [] initState rfl
      (by decide)).2.1 rfl (by decide)
  · exact (claim_C3 ctx3 3 0 1 0 .mul (.basic "chan error") [] initState rfl
      (by decide)).2.2.1 rfl rfl
  · exact (claim_C3 ctxG 3 0 0 0 .mul (.named "Good") [] initState rfl
      (by decide)).2.2.2.1 rfl rfl
  · exact (claim_C3 ctx10 3 0 1 0 .mul (.tuple 2) [] initState rfl
      (by decide)).2.2.2.2 rfl rfl

end retlint

namespace rt

/-- The violating contract behaviour of the C6 witness. -/
def behaveX : Behavior :=
  fun t => if t.contract == "X" then some "boom" else none

def tgtX : target := { id := 0, contract := "X", config := "", pos := 3 }

def tgtY : target := { id := 1, contract := "Y", config := "", pos := 4 }

/-- C6.  A target whose `Enforce` returns a non-nil error is converted into
a report `"%s: %v"` against the target's position, `enforce` itself returns
nil, and `enforceAll` carries on with the remaining targets: the error
neither surfaces as a worker error nor cancels the siblings. -/
theorem claim_C6 (behave : Behavior) (tgt : target) (e : String)
    (rest : List target) (h : behave tgt = some e) :
    enforce behave tgt =
      ([{ pos := tgt.pos, contract := tgt.contract,
          info := tgt.contract ++ ": " ++ e }], none) ∧
    (enforceAll behave (tgt :: rest)).1 =
      { pos := tgt.pos, contract := tgt.contract,
        info := tgt.contract ++ ": " ++ e } :: (enforceAll behave rest).1 ∧
    (enforceAll behave (tgt :: rest)).2 = (enforceAll behave rest).2 := by
  have he : enforce behave tgt =
      ([{ pos := tgt.pos, contract := tgt.contract, info := tgt.contract ++ ": " ++ e }], none) := by
    unfold enforce
    rw [h]
  refine ⟨he, ?_, ?_⟩ <;> simp [enforceAll, he]

/-- Witness for C6: the `X` contract errors, the `Y` sibling still runs. -/
theorem claim_C6_witness :
    enforce behaveX tgtX = ([{ pos := 3, contract := "X", info := "X" ++ ": " ++ "boom" }], none) ∧
    (enforceAll behaveX (tgtX :: [tgtY])).1 = { pos := 3, contract := "X", info := "X" ++ ": " ++ "boom" } :: (enforceAll behaveX [tgtY]).1 ∧
    (enforceAll behaveX (tgtX :: [tgtY])).2 = (enforceAll behaveX [tgtY]).2 :=
  claim_C6 behaveX tgtX "boom" [tgtY] rfl

/-- C7.  With `--set_exit_status` and a run that produced no error and no
reports, `Main` still exits 1: `RunE` replaces a nil `Execute` error by
"reports generated" without consulting the report count, contradicting the
claimed "0 when the run succeeded with zero reports". -/
theorem claim_C7 :
    mainExit true [] none = 1 ∧
    mainExit false [] none = 0 ∧
    mainExit true [] (some "fatal") = 1 ∧
    mainExit false [] (some "fatal") = 1 :=
  ⟨rfl, rfl, rfl, rfl⟩

/-- The mutually-referent aliases and duplicate-binding tables of the C5
and C9 inputs. -/
def tB : target := { id := 1, contract := "B", config := "", pos := 11 }

def tA : target := { id := 2, contract := "A", config := "", pos := 12 }

def alCyc : AliasTable := [("A", [tB]), ("B", [tA])]

def base0 : target := { id := 0, contract := "A", config := "", pos := 7 }

def tSelf : target := { id := 1, contract := "A", config := "", pos := 11 }

def alSelf : AliasTable := [("A", [tSelf])]

def u1 : target := { id := 1, contract := "B", config := "", pos := 99 }

def u2 : target := { id := 2, contract := "B", config := "", pos := 100 }

/-- An alias bound twice to the same contract. -/
def alDup : AliasTable := [("A", [u1, u2])]

def base9 : target := { id := 0, contract := "A", config := "", pos := 5 }

/-- The terminal target both bindings of `alDup` expand to. -/
def t5B : target := { id := 0, contract := "B", config := "", pos := 5 }

/-- C9 counterexample.  Expanding the duplicate-binding table produces the
same `(position, contract)` terminal target twice, and `expandAll` hands
both to enforcement: nothing coalesces them. -/
theorem claim_C9_counterexample :
    expandAll alDup ["B"] (fun _ => true) [base9] (expandFuel alDup base9) =
      some (.ok [t5B, t5B]) ∧
    t5B.pos = 5 ∧ t5B.contract = "B" := by
  refine ⟨?_, rfl, rfl⟩
  rfl

end rt

namespace retlint

/-- C2 counterexample.  `P2`'s only function satisfies the claim's
hypothesis — its single `Return` yields, at the only target index, a value
whose type is the allowed `error` — yet `execute` marks it Dirty: `decide`
recurses into the value's defining instruction, finds a call without a
static callee, and dirties the function without consulting the call's own
type. -/
theorem claim_C2_counterexample :
    ReturnsOnlyAllowedOrNil ctx2 0 ∧
    finalStateOf cfg2 env1 P2 10 30 0 = some .dirty := by
  constructor
  · intro r hr idx hidx
    have he : (ctx2.prog.funcs.getD 0 default).returns = [[0]] := rfl
    rw [he] at hr
    have hti : targetIndexesOf ctx2 0 = [0] := rfl
    rw [hti] at hidx
    have hr2 : r = [0] := List.mem_singleton.1 hr
    have hx2 : idx = 0 := List.mem_singleton.1 hidx
    subst hr2
    subst hx2
    exact Or.inr ⟨.call none (.named "error"), rfl, rfl⟩
  · rfl

/-- The safe program of the C2 witness: one root function returning a nil
constant. -/
def PW : Program :=
  { funcs := [{ name := "F", inRoot := true, results := [.named "error"], returns := [[0]] }],
    vals := [.const true (.named "error")],
    roots := [0] }

def cfgW : RetLint := { AllowedNames := ["Good"], TargetName := "error" }

def ctxW : Ctx := { prog := PW, target := "error", allowed := ["Good"] }

def execW : ExecOutcome := execute cfgW env1 PW 10 30

def sW : LintState :=
  match execW with
  | .ok s _ => s
  | _ => initState

def dlW : List (Nat × List DirtyReason) :=
  match execW with
  | .ok _ d => d
  | _ => []

/-- Witness for C2: the nil-returning function's stat ends non-Dirty and
the dirty list never mentions it. -/
theorem claim_C2_witness :
    (sW.getStat 1).state ≠ .dirty ∧ (0, ([] : List DirtyReason)) ∉ dlW := by
  have hsafe : ∀ r ∈ (ctxW.prog.funcs.getD 0 default).returns,
      ∀ idx ∈ targetIndexesOf ctxW 0, Safe ctxW (r.getD idx 0) := by
    intro r hr idx hidx
    have he : (ctxW.prog.funcs.getD 0 default).returns = [[0]] := rfl
    rw [he] at hr
    have hti : targetIndexesOf ctxW 0 = [0] := rfl
    rw [hti] at hidx
    have hr2 : r = [0] := List.mem_singleton.1 hr
    have hx2 : idx = 0 := List.mem_singleton.1 hidx
    subst hr2
    subst hx2
    exact Safe.constNil rfl
  have h := claim_C2 cfgW env1 PW 10 30 sW dlW 0 ctxW rfl rfl rfl hsafe (by rfl)
  exact ⟨h.1 1 (by decide) rfl, h.2 []⟩

/-- C1 counterexample.  The stored `why` for `F` after the fixed point has
length 2 (through the call to `G`), although a one-hop dirty-producing path
exists: `F`'s second `Return` directly yields a disallowed constant.
`analyze` stops deciding further results as soon as the state leaves
Analyzing, so the shorter explanation is never considered and the stored
path is not minimal. -/
theorem claim_C1_counterexample :
    (finalWhyOf cfg1 env1 P1 10 30 0).map List.length = some 2 ∧
    DirtyProducing ctx1 0 1 := by
  constructor
  · rfl
  · exact DirtyProducing.direct
      (show RootVal ctx1 0 1 from ⟨[1], by decide, 0, by decide, rfl⟩)
      (VReach.refl 1) ⟨rfl, rfl⟩

/-- C1 (amended).  What `markDirty` actually guarantees: a Dirty stat with
a stored explanation at most as short as the incoming chain is left
entirely unchanged; when the stored explanation is empty or strictly
longer, the incoming chain is adopted, the stat becomes Dirty and the
chain is propagated (one hop longer) through the registered dependents;
and under the work-phase invariants no stored explanation of a Dirty stat
ever changes except to a strictly shorter one.  Minimality over all
dirty-producing paths, as the claim has it, does not hold
(`claim_C1_counterexample`). -/
theorem claim_C1 :
    (∀ (c : Ctx) (fuel sid : Nat) (why : List DirtyReason) (s : LintState),
      s.panicMsg = none → (s.getStat sid).state = .dirty →
      (s.getStat sid).why ≠ [] →
      ¬ why.length < (s.getStat sid).why.length →
      markDirtyF c (fuel + 1) sid why s = s) ∧
    (∀ (c : Ctx) (fuel sid : Nat) (why : List DirtyReason) (s : LintState),
      s.panicMsg = none → sid < s.heap.length →
      ((s.getStat sid).why = [] ∨ why.length < (s.getStat sid).why.length) →
      markDirtyF c (fuel + 1) sid why s =
        markProp c fuel (s.getStat sid).dirties why
          ((s.updStat sid (fun t => { t with why := why })).updStat sid
            (fun t => { t with state := .dirty })) ∧
      (((s.updStat sid (fun t => { t with why := why })).updStat sid
          (fun t => { t with state := .dirty })).getStat sid).why = why ∧
      (((s.updStat sid (fun t => { t with why := why })).updStat sid
          (fun t => { t with state := .dirty })).getStat sid).state = .dirty) ∧
    (∀ (c : Ctx) (fuel sid : Nat) (why : List DirtyReason) (s : LintState),
      Wf s → NotClean s sid → why ≠ [] →
      ∀ i, i < s.heap.length → (s.getStat i).state = .dirty →
        ((markDirtyF c fuel sid why s).getStat i).why = (s.getStat i).why ∨
        ((markDirtyF c fuel sid why s).getStat i).why.length <
          (s.getStat i).why.length) := by
  refine ⟨?_, ?_, ?_⟩
  · intro c fuel sid why s hp hd hwne hnlt
    have hch : ((s.getStat sid).why.isEmpty ||
        decide (why.length < (s.getStat sid).why.length)) = false := by
      simp [List.isEmpty_iff, hwne, hnlt]
    simp only [markDirtyF, hp, Option.isSome_none, Bool.false_eq_true,
      if_false, hch]
    simp [hd]
  · intro c fuel sid why s hp hlen hrep
    have hch : ((s.getStat sid).why.isEmpty ||
        decide (why.length < (s.getStat sid).why.length)) = true := by
      rcases hrep with h | h
      · simp [List.isEmpty_iff, h]
      · simp [h]
    refine ⟨?_, ?_, ?_⟩
    · simp only [markDirtyF, hp, Option.isSome_none, Bool.false_eq_true,
        if_false, hch]
      simp
    · rw [getStat_updStat_self _ _ _ (by rw [updStat_length]; exact hlen)]
      rw [getStat_updStat_self _ _ _ hlen]
    · rw [getStat_updStat_self _ _ _ (by rw [updStat_length]; exact hlen)]
  · intro c fuel sid why s hw hnc hwne i hi hdirty
    have hm := ((workPhase fuel).2.2.2.2.2.1 c sid why s hw hnc hwne).2
    exact ((hm.2.1 i hi).2.2.2.1 hdirty).2

/-- A Dirty stat with a one-entry explanation, for the C1 witness. -/
def d1 : DirtyReason := { reason := "seed", value := 0 }

def d2 : DirtyReason := { reason := "chain", value := 0 }

def stC : funcStat :=
  { fn := 0, returns := [], targetIndexes := [], state := .dirty, why := [d1], dirties := [] }

def sC : LintState :=
  { heap := [cleanStat, stC], stats := [], work := [], panicMsg := none }

/-- Witness for C1: a longer chain leaves the stored `why` alone, an empty
stored `why` adopts the chain, and a concrete Dirty stat's explanation
never grows. -/
theorem claim_C1_witness :
    markDirtyF ctx1 5 1 [d1, d2] sC = sC ∧
    (markDirtyF ctx1 5 1 [] sC =
        markProp ctx1 4 (sC.getStat 1).dirties []
          ((sC.updStat 1 (fun t => { t with why := ([] : List DirtyReason) })).updStat 1
            (fun t => { t with state := FState.dirty })) ∧
      (((sC.updStat 1 (fun t => { t with why := ([] : List DirtyReason) })).updStat 1
          (fun t => { t with state := FState.dirty })).getStat 1).why = [] ∧
      (((sC.updStat 1 (fun t => { t with why := ([] : List DirtyReason) })).updStat 1
          (fun t => { t with state := FState.dirty })).getStat 1).state = .dirty) ∧
    (((markDirtyF ctx1 3 1 [d2] sC).getStat 1).why = (sC.getStat 1).why ∨
      ((markDirtyF ctx1 3 1 [d2] sC).getStat 1).why.length <
        (sC.getStat 1).why.length) := by
  refine ⟨?_, ?_, ?_⟩
  · exact claim_C1.1 ctx1 4 1 [d1, d2] sC rfl rfl (by decide) (by decide)
  · exact claim_C1.2.1 ctx1 4 1 [] sC rfl (by decide) (Or.inr (by decide))
  · exact claim_C1.2.2 ctx1 3 1 [d2] sC
      (by constructor <;> decide)
      (by show (sC.getStat 1).state ≠ FState.clean; decide)
      (by decide) 1 (by decide) rfl

end retlint

namespace retlint

def exec1 : ExecOutcome := execute cfg1 env1 P1 10 30

def s1W : LintState :=
  match exec1 with
  | .ok s _ => s
  | _ => initState

def dl1W : List (Nat × List DirtyReason) :=
  match exec1 with
  | .ok _ d => d
  | _ => []

/-- C4.  The state-transition discipline, for every operation of the work
phase under the work-phase invariants: the heap only grows, and per stat —
the extraction fields are frozen, a Dirty stat stays Dirty and its `why`
changes only to a strictly shorter chain, a Clean stat is never touched,
and no stat leaves the non-Clean states for Clean (all of that is `Mono`,
unfolded in `StatMono`); and after `Execute`'s fixed point and final sweep
no recorded function is left Analyzing. -/
theorem claim_C4 :
    (∀ (c : Ctx) (fuel sid : Nat) (s : LintState), Wf s →
      Mono s (analyzeF c fuel sid s)) ∧
    (∀ (c : Ctx) (fuel sid v : Nat) (seen : List Nat) (s : LintState),
      Wf s → NotClean s sid → Mono s (decideF c fuel sid v seen s).1) ∧
    (∀ (c : Ctx) (fuel sid : Nat) (why : List DirtyReason) (s : LintState),
      Wf s → NotClean s sid → why ≠ [] →
      Mono s (markDirtyF c fuel sid why s)) ∧
    (∀ (c : Ctx) (fn : Nat) (s : LintState), Wf s → Mono s (statF c fn s).1) ∧
    (∀ (c : Ctx) (outer fuel : Nat) (s : LintState), Wf s →
      Mono s (workLoop c outer fuel s)) ∧
    (∀ (l : RetLint) (env : ResolveEnv) (p : Program) (fo fi : Nat)
      (s : LintState) (dl : List (Nat × List DirtyReason)),
      execute l env p fo fi = .ok s dl →
      ∀ fn sid, mapFind s.stats fn = some sid →
        (s.getStat sid).state ≠ .analyzing) := by
  refine ⟨?_, ?_, ?_, ?_, ?_, ?_⟩
  · intro c fuel sid s hw
    exact ((workPhase fuel).1 c sid s hw).2
  · intro c fuel sid v seen s hw hnc
    exact ((workPhase fuel).2.2.2.1 c sid v seen s hw hnc).2
  · intro c fuel sid why s hw hnc hwne
    exact ((workPhase fuel).2.2.2.2.2.1 c sid why s hw hnc hwne).2
  · intro c fn s hw
    exact (statF_wf_mono c fn s hw).2
  · intro c outer fuel s hw
    exact (wf_mono_workLoop c outer fuel s hw).2
  · intro l env p fo fi s dl hexec fn sid hfind
    obtain ⟨c, x, _, _, _, _, _, hse, _⟩ :=
      execute_ok_shape l env p fo fi s dl hexec
    rw [hse] at hfind ⊢
    exact cleanupPass_no_analyzing x fn sid hfind

/-- Witness for C4 at the two-function program: one work-phase operation
from the initial state, and the final no-Analyzing guarantee for `F`'s
recorded stat. -/
theorem claim_C4_witness :
    Mono initState (analyzeF ctx1 5 1 initState) ∧
    (s1W.getStat 1).state ≠ .analyzing := by
  refine ⟨claim_C4.1 ctx1 5 1 initState wf_init, ?_⟩
  exact claim_C4.2.2.2.2.2 cfg1 env1 P1 10 30 s1W dl1W (by rfl) 0 1 (by rfl)

end retlint

namespace rt

/-- The per-target property the expansion loop preserves: position and id
are inherited from the base annotation. -/
def InheritsOf (base t : target) : Prop :=
  t.pos = base.pos ∧ t.id = base.id

theorem mem_sortInsert (t x : target) : ∀ (l : List target),
    x ∈ sortInsert t l ↔ x = t ∨ x ∈ l := by
  intro l
  induction l with
  | nil => simp [sortInsert]
  | cons a rest ih =>
    simp only [sortInsert]
    by_cases hle : targetLE t a = true
    · simp [hle]
    · simp only [hle, Bool.false_eq_true, if_false, List.mem_cons, ih]
      tauto

theorem mem_sortTargets (x : target) : ∀ (l : List target),
    x ∈ sortTargets l ↔ x ∈ l := by
  intro l
  induction l with
  | nil => simp [sortTargets]
  | cons a rest ih =>
    simp [sortTargets, mem_sortInsert, ih]

theorem expandBatch_inherits (al : AliasTable) (base : target) :
    ∀ (batch : List target) (seen : List Nat) (nonTerm term : List target)
      (seen2 : List Nat) (nt2 term2 : List target),
      (∀ t ∈ term, InheritsOf base t) →
      expandBatch al base batch seen nonTerm term = .ok (seen2, nt2, term2) →
      ∀ t ∈ term2, InheritsOf base t := by
  intro batch
  induction batch with
  | nil =>
    intro seen nonTerm term seen2 nt2 term2 hterm heq
    simp only [expandBatch] at heq
    have h3 : term2 = term := by
      have h := congrArg (fun x => x.2.2) (Except.ok.inj heq)
      simpa using h.symm
    rw [h3]
    exact hterm
  | cons a rest ih =>
    intro seen nonTerm term seen2 nt2 term2 hterm heq
    simp only [expandBatch] at heq
    by_cases hmem : a.id ∈ seen
    · rw [if_pos hmem] at heq
      exact absurd heq (by simp)
    · rw [if_neg hmem] at heq
      cases hl : aliasLookup al a.contract with
      | some more =>
        rw [hl] at heq
        exact ih _ _ _ _ _ _ hterm heq
      | none =>
        rw [hl] at heq
        refine ih _ _ _ _ _ _ ?_ heq
        intro t ht
        rcases List.mem_append.1 ht with h | h
        · exact hterm t h
        · rw [List.mem_singleton.1 h]
          exact ⟨rfl, rfl⟩

theorem expandLoop_inherits (al : AliasTable) (base : target) :
    ∀ (fuel : Nat) (seen : List Nat) (nonTerm term : List target)
      (l : List target),
      (∀ t ∈ term, InheritsOf base t) →
      (∀ t ∈ nonTerm, True) →
      expandLoop al base fuel seen nonTerm term = some (.ok l) →
      ∀ t ∈ l, InheritsOf base t := by
  intro fuel
  induction fuel with
  | zero =>
    intro seen nonTerm term l hterm _ heq
    exact absurd heq (by simp [expandLoop])
  | succ fuel ih =>
    intro seen nonTerm term l hterm _ heq
    simp only [expandLoop] at heq
    by_cases hne : nonTerm.isEmpty
    · rw [if_pos hne] at heq
      have hl : l = sortTargets term := by
        have := Option.some.inj heq
        exact (Except.ok.inj this).symm
      intro t ht
      rw [hl] at ht
      exact hterm t ((mem_sortTargets t term).1 ht)
    · rw [if_neg hne] at heq
      cases hb : expandBatch al base nonTerm seen [] term with
      | error e =>
        rw [hb] at heq
        exact absurd (Option.some.inj heq) (by simp)
      | ok trip =>
        rw [hb] at heq
        obtain ⟨seen2, nt2, term2⟩ := trip
        exact ih _ _ _ _ (expandBatch_inherits al base _ _ _ _ _ _ _ hterm hb)
          (fun _ _ => trivial) heq

/-- C9 (amended).  No coalescing happens (`claim_C9_counterexample`): what
is true is that every terminal target minted by `expand` is a copy of the
scanned base annotation — it inherits the base's source position and
declaration id, with only the contract name and configuration taken from
the alias binding. -/
theorem claim_C9 (al : AliasTable) (base : target) (fuel : Nat)
    (l : List target) (h : expand al base fuel = some (.ok l)) :
    ∀ t ∈ l, t.pos = base.pos ∧ t.id = base.id := by
  unfold expand at h
  cases hl : aliasLookup al base.contract with
  | none =>
    rw [hl] at h
    have : l = [base] := (Except.ok.inj (Option.some.inj h)).symm
    intro t ht
    rw [this] at ht
    rw [List.mem_singleton.1 ht]
    exact ⟨rfl, rfl⟩
  | some nonTerm =>
    rw [hl] at h
    exact expandLoop_inherits al base fuel [base.id] nonTerm [] l
      (by intro t ht; exact absurd ht (List.not_mem_nil t))
      (fun _ _ => trivial) h

/-- Witness for C9: both duplicate expansions of `base9` inherit its
position and id. -/
theorem claim_C9_witness : t5B.pos = base9.pos ∧ t5B.id = base9.id :=
  claim_C9 alDup base9 5 [t5B, t5B] (by rfl) t5B (by decide)

end rt

namespace rt

/-- The id universe `seen` draws from: the base annotation's id and every
alias-bound target's id. -/
def idU (al : AliasTable) (base : target) : List Nat :=
  base.id :: (al.flatMap (·.2)).map (·.id)

theorem expandFuel_eq (al : AliasTable) (base : target) :
    expandFuel al base = (idU al base).dedup.length + 2 := rfl

theorem aliasLookup_subset (al : AliasTable) (c : String) (l : List target)
    (h : aliasLookup al c = some l) : ∀ t ∈ l, t ∈ al.flatMap (·.2) := by
  intro t ht
  unfold aliasLookup at h
  rcases Option.map_eq_some'.1 h with ⟨p, hp, hpl⟩
  have hm := List.mem_of_find?_eq_some hp
  exact List.mem_flatMap.2 ⟨p, hm, by rw [hpl]; exact ht⟩

theorem expandBatch_ok_facts (al : AliasTable) (base : target) :
    ∀ (batch : List target) (seen : List Nat) (nt term : List target)
      (seen2 : List Nat) (nt2 term2 : List target),
      expandBatch al base batch seen nt term = .ok (seen2, nt2, term2) →
      seen2.length = seen.length + batch.length ∧
      (seen.Nodup → seen2.Nodup) ∧
      (∀ x ∈ seen2, x ∈ seen ∨ ∃ a ∈ batch, x = a.id) ∧
      (∀ t ∈ nt2, t ∈ nt ∨ t ∈ al.flatMap (·.2)) := by
  intro batch
  induction batch with
  | nil =>
    intro seen nt term seen2 nt2 term2 heq
    simp only [expandBatch] at heq
    have h1 : seen2 = seen := by
      have h := congrArg (fun x => x.1) (Except.ok.inj heq)
      simpa using h.symm
    have h2 : nt2 = nt := by
      have h := congrArg (fun x => x.2.1) (Except.ok.inj heq)
      simpa using h.symm
    subst h1
    subst h2
    exact ⟨by simp, fun h => h, fun x hx => Or.inl hx, fun t ht => Or.inl ht⟩
  | cons a rest ih =>
    intro seen nt term seen2 nt2 term2 heq
    simp only [expandBatch] at heq
    by_cases hmem : a.id ∈ seen
    · rw [if_pos hmem] at heq
      exact absurd heq (by simp)
    · rw [if_neg hmem] at heq
      cases hl : aliasLookup al a.contract with
      | some more =>
        rw [hl] at heq
        obtain ⟨e1, e2, e4, e5⟩ := ih _ _ _ _ _ _ heq
        refine ⟨by rw [e1]; simp; omega, ?_, ?_, ?_⟩
        · intro hnd
          exact e2 (List.nodup_cons.2 ⟨hmem, hnd⟩)
        · intro x hx
          rcases e4 x hx with h | h
          · rcases List.mem_cons.1 h with h2 | h2
            · exact Or.inr ⟨a, List.mem_cons_self _ _, h2⟩
            · exact Or.inl h2
          · obtain ⟨b, hb, hbid⟩ := h
            exact Or.inr ⟨b, List.mem_cons_of_mem _ hb, hbid⟩
        · intro t ht
          rcases e5 t ht with h | h
          · rcases List.mem_append.1 h with h2 | h2
            · exact Or.inl h2
            · exact Or.inr (aliasLookup_subset al a.contract more hl t h2)
          · exact Or.inr h
      | none =>
        rw [hl] at heq
        obtain ⟨e1, e2, e4, e5⟩ := ih _ _ _ _ _ _ heq
        refine ⟨by rw [e1]; simp; omega, ?_, ?_, ?_⟩
        · intro hnd
          exact e2 (List.nodup_cons.2 ⟨hmem, hnd⟩)
        · intro x hx
          rcases e4 x hx with h | h
          · rcases List.mem_cons.1 h with h2 | h2
            · exact Or.inr ⟨a, List.mem_cons_self _ _, h2⟩
            · exact Or.inl h2
          · obtain ⟨b, hb, hbid⟩ := h
            exact Or.inr ⟨b, List.mem_cons_of_mem _ hb, hbid⟩
        · exact e5

theorem expandLoop_total (al : AliasTable) (base : target) :
    ∀ (fuel : Nat) (seen : List Nat) (nonTerm term : List target),
      seen.Nodup → (∀ x ∈ seen, x ∈ idU al base) →
      (∀ t ∈ nonTerm, t ∈ al.flatMap (·.2)) →
      (idU al base).dedup.length + 1 ≤ fuel + seen.length →
      expandLoop al base fuel seen nonTerm term ≠ none := by
  intro fuel
  induction fuel with
  | zero =>
    intro seen nonTerm term hnd hsub hnt hf
    have hsub2 : seen ⊆ (idU al base).dedup :=
      fun x hx => List.mem_dedup.2 (hsub x hx)
    have hle := (hnd.subperm hsub2).length_le
    exact absurd hf (by omega)
  | succ fuel ih =>
    intro seen nonTerm term hnd hsub hnt hf
    simp only [expandLoop]
    by_cases hne : nonTerm.isEmpty
    · simp [hne]
    · simp only [hne, Bool.false_eq_true, if_false]
      cases hb : expandBatch al base nonTerm seen [] term with
      | error e => simp
      | ok trip =>
        obtain ⟨seen2, nt2, term2⟩ := trip
        obtain ⟨e1, e2, e4, e5⟩ := expandBatch_ok_facts al base _ _ _ _ _ _ _ hb
        apply ih seen2 nt2 term2 (e2 hnd)
        · intro x hx
          rcases e4 x hx with h | h
          · exact hsub x h
          · obtain ⟨a, ha, haid⟩ := h
            have hat : a ∈ al.flatMap (·.2) := hnt a ha
            rw [haid]
            exact List.mem_cons_of_mem _ (List.mem_map.2 ⟨a, hat, rfl⟩)
        · intro t ht
          rcases e5 t ht with h | h
          · exact absurd h (List.not_mem_nil t)
          · exact h
        · have hlen : 1 ≤ nonTerm.length := by
            cases nonTerm with
            | nil => exact (hne rfl).elim
            | cons x xs => simp
          omega

theorem expand_total (al : AliasTable) (base : target) (fuel : Nat)
    (hf : expandFuel al base ≤ fuel) : expand al base fuel ≠ none := by
  unfold expand
  cases hl : aliasLookup al base.contract with
  | none => simp
  | some nonTerm =>
    apply expandLoop_total al base fuel [base.id] nonTerm []
    · exact List.nodup_singleton _
    · intro x hx
      rw [List.mem_singleton.1 hx]
      exact List.Mem.head _
    · exact aliasLookup_subset al base.contract nonTerm hl
    · have he := expandFuel_eq al base
      rw [he] at hf
      simp only [List.length_singleton]
      omega

theorem cyc_step (al : AliasTable) (u : target) (h : CycleReach al u) :
    ∃ more, aliasLookup al u.contract = some more ∧
      ∃ v ∈ more, CycleReach al v := by
  obtain ⟨cyc, hrt, hcyc⟩ := h
  rcases Relation.ReflTransGen.cases_head hrt with heq | ⟨b, hub, hbc⟩
  · subst heq
    rcases Relation.TransGen.head'_iff.1 hcyc with ⟨b, hub, hbc⟩
    obtain ⟨more, hm, hbm⟩ := hub
    exact ⟨more, hm, b, hbm, u, hbc, hcyc⟩
  · obtain ⟨more, hm, hbm⟩ := hub
    exact ⟨more, hm, b, hbm, cyc, hbc, hcyc⟩

theorem expandBatch_cyc (al : AliasTable) (base : target) :
    ∀ (batch : List target) (seen : List Nat) (nt term : List target)
      (seen2 : List Nat) (nt2 term2 : List target),
      ((∃ u ∈ batch, CycleReach al u) ∨ (∃ u ∈ nt, CycleReach al u)) →
      expandBatch al base batch seen nt term = .ok (seen2, nt2, term2) →
      ∃ u ∈ nt2, CycleReach al u := by
  intro batch
  induction batch with
  | nil =>
    intro seen nt term seen2 nt2 term2 hinv heq
    rcases hinv with ⟨u, hu, _⟩ | hnt
    · exact absurd hu (List.not_mem_nil u)
    · simp only [expandBatch] at heq
      have h2 : nt2 = nt := by
        have h := congrArg (fun x => x.2.1) (Except.ok.inj heq)
        simpa using h.symm
      rw [h2]
      exact hnt
  | cons a rest ih =>
    intro seen nt term seen2 nt2 term2 hinv heq
    simp only [expandBatch] at heq
    by_cases hmem : a.id ∈ seen
    · rw [if_pos hmem] at heq
      exact absurd heq (by simp)
    · rw [if_neg hmem] at heq
      by_cases hca : CycleReach al a
      · obtain ⟨more, hm, v, hv, hcv⟩ := cyc_step al a hca
        rw [hm] at heq
        exact ih _ _ _ _ _ _
          (Or.inr ⟨v, List.mem_append.2 (Or.inr hv), hcv⟩) heq
      · rcases hinv with ⟨u, hu, hcu⟩ | ⟨u, hu, hcu⟩
        · rcases List.mem_cons.1 hu with h | h
          · exact absurd (h ▸ hcu) hca
          · cases hl : aliasLookup al a.contract with
            | some more =>
              rw [hl] at heq
              exact ih _ _ _ _ _ _ (Or.inl ⟨u, h, hcu⟩) heq
            | none =>
              rw [hl] at heq
              exact ih _ _ _ _ _ _ (Or.inl ⟨u, h, hcu⟩) heq
        · cases hl : aliasLookup al a.contract with
          | some more =>
            rw [hl] at heq
            exact ih _ _ _ _ _ _
              (Or.inr ⟨u, List.mem_append.2 (Or.inl hu), hcu⟩) heq
          | none =>
            rw [hl] at heq
            exact ih _ _ _ _ _ _ (Or.inr ⟨u, hu, hcu⟩) heq

theorem expandLoop_cyc (al : AliasTable) (base : target) :
    ∀ (fuel : Nat) (seen : List Nat) (nonTerm term l : List target),
      (∃ u ∈ nonTerm, CycleReach al u) →
      expandLoop al base fuel seen nonTerm term ≠ some (.ok l) := by
  intro fuel
  induction fuel with
  | zero =>
    intro seen nonTerm term l hinv
    simp [expandLoop]
  | succ fuel ih =>
    intro seen nonTerm term l hinv
    simp only [expandLoop]
    have hne : nonTerm.isEmpty = false := by
      obtain ⟨u, hu, _⟩ := hinv
      cases nonTerm with
      | nil => exact absurd hu (List.not_mem_nil u)
      | cons x xs => rfl
    simp only [hne, Bool.false_eq_true, if_false]
    cases hb : expandBatch al base nonTerm seen [] term with
    | error e => simp
    | ok trip =>
      obtain ⟨seen2, nt2, term2⟩ := trip
      exact ih _ _ _ l (expandBatch_cyc al base _ _ _ _ _ _ _ (Or.inl hinv) hb)

theorem expandBatch_error_shape (al : AliasTable) (base : target) :
    ∀ (batch : List target) (seen : List Nat) (nt term : List target)
      (e : String),
      expandBatch al base batch seen nt term = .error e →
      ∃ a, e = cycleMsg base a := by
  intro batch
  induction batch with
  | nil =>
    intro seen nt term e heq
    exact absurd heq (by simp [expandBatch])
  | cons a rest ih =>
    intro seen nt term e heq
    simp only [expandBatch] at heq
    by_cases hmem : a.id ∈ seen
    · rw [if_pos hmem] at heq
      exact ⟨a, (Except.error.inj heq).symm⟩
    · rw [if_neg hmem] at heq
      cases hl : aliasLookup al a.contract with
      | some more =>
        rw [hl] at heq
        exact ih _ _ _ _ heq
      | none =>
        rw [hl] at heq
        exact ih _ _ _ _ heq

theorem expandLoop_error_shape (al : AliasTable) (base : target) :
    ∀ (fuel : Nat) (seen : List Nat) (nonTerm term : List target)
      (e : String),
      expandLoop al base fuel seen nonTerm term = some (.error e) →
      ∃ a, e = cycleMsg base a := by
  intro fuel
  induction fuel with
  | zero =>
    intro seen nonTerm term e heq
    exact absurd heq (by simp [expandLoop])
  | succ fuel ih =>
    intro seen nonTerm term e heq
    simp only [expandLoop] at heq
    by_cases hne : nonTerm.isEmpty
    · rw [if_pos hne] at heq
      exact absurd (Option.some.inj heq) (by simp)
    · rw [if_neg hne] at heq
      cases hb : expandBatch al base nonTerm seen [] term with
      | error e2 =>
        rw [hb] at heq
        have : e = e2 := by
          have h := Option.some.inj heq
          exact (Except.error.inj h).symm
        rw [this]
        exact expandBatch_error_shape al base _ _ _ _ _ hb
      | ok trip =>
        rw [hb] at heq
        obtain ⟨seen2, nt2, term2⟩ := trip
        exact ih _ _ _ _ heq

/-- C5.  Expansion always terminates once the fuel reaches `expandFuel`
(one unit per distinct alias-target id plus slack): the `seen` set grows by
every processed target and is bounded by the id universe.  When the base
annotation reaches an alias cycle, no fuel ever produces a terminal target
list, and with sufficient fuel the result is exactly a positioned
configuration error naming a re-visited alias contract. -/
theorem claim_C5 :
    (∀ (al : AliasTable) (base : target) (fuel : Nat),
      expandFuel al base ≤ fuel → expand al base fuel ≠ none) ∧
    (∀ (al : AliasTable) (base : target) (fuel : Nat) (l : List target),
      CycleReach al base → expand al base fuel ≠ some (.ok l)) ∧
    (∀ (al : AliasTable) (base : target), CycleReach al base →
      ∃ e, expand al base (expandFuel al base) = some (.error e) ∧
        ∃ a, e = cycleMsg base a) := by
  have h1 : ∀ (al : AliasTable) (base : target) (fuel : Nat),
      expandFuel al base ≤ fuel → expand al base fuel ≠ none :=
    fun al base fuel hf => expand_total al base fuel hf
  have h2 : ∀ (al : AliasTable) (base : target) (fuel : Nat)
      (l : List target), CycleReach al base →
      expand al base fuel ≠ some (.ok l) := by
    intro al base fuel l hcyc
    obtain ⟨more, hm, v, hv, hcv⟩ := cyc_step al base hcyc
    unfold expand
    rw [hm]
    exact expandLoop_cyc al base fuel [base.id] more [] l ⟨v, hv, hcv⟩
  refine ⟨h1, h2, ?_⟩
  intro al base hcyc
  cases hres : expand al base (expandFuel al base) with
  | none => exact absurd hres (h1 al base _ le_rfl)
  | some r =>
    cases r with
    | ok l => exact absurd hres (h2 al base _ l hcyc)
    | error e =>
      refine ⟨e, rfl, ?_⟩
      unfold expand at hres
      cases hl : aliasLookup al base.contract with
      | none =>
        rw [hl] at hres
        exact absurd (Option.some.inj hres) (by simp)
      | some nonTerm =>
        rw [hl] at hres
        exact expandLoop_error_shape al base _ _ _ _ _ hres

/-- Witness for C5 at the two-alias cycle `A → B → A`. -/
theorem claim_C5_witness :
    expand alCyc base0 (expandFuel alCyc base0) ≠ none ∧
    expand alCyc base0 9 ≠ some (.ok [base0]) ∧
    (∃ e, expand alCyc base0 (expandFuel alCyc base0) = some (.error e) ∧
      ∃ a, e = cycleMsg base0 a) := by
  have hcyc : CycleReach alCyc base0 := by
    refine ⟨tB, Relation.ReflTransGen.single ⟨[tB], rfl, List.Mem.head _⟩, ?_⟩
    exact Relation.TransGen.head ⟨[tA], rfl, List.Mem.head _⟩
      (Relation.TransGen.single ⟨[tB], rfl, List.Mem.head _⟩)
  exact ⟨claim_C5.1 alCyc base0 _ le_rfl,
    claim_C5.2.1 alCyc base0 9 [base0] hcyc,
    claim_C5.2.2 alCyc base0 hcyc⟩

end rt
